import Mathlib

/-!
Verification of the argument parsing and validation engine of the
obmc-yadro-netconfig utility (src/arguments.cpp, class `Arguments`).

The engine is embedded shallowly:
* the token cursor (`Arguments`) becomes a structure holding the token list
  and the current index, with explicit state passing;
* fallible operations return `Except Err`, where `Err.invalidArg msg` models
  a thrown `std::invalid_argument(msg)` and `Err.outOfRange` models a thrown
  `std::out_of_range` (raised by `std::stoi` / `std::string::substr`);
* the libc primitives the code calls (`inet_pton`, `inet_ntop`, `strtoul`,
  `std::stoi`) are modelled by executable Lean functions that follow the
  glibc algorithms, as documented at each definition.

All strings are processed as `List Char`, with `String` wrappers at the
points where the C++ functions take `std::string` / `const char*`.
-/

/-- IP version tag, mirroring `enum class IpVer { v4, v6 }`. -/
inductive IpVer
  | v4
  | v6
deriving DecidableEq, Repr

/-- Error outcomes of the parsers.  `invalidArg` models `std::invalid_argument`
(the single error kind the engine is supposed to raise); `outOfRange` models
`std::out_of_range`, which can escape from `std::stoi` and
`std::string::substr` in the port-parsing path. -/
inductive Err
  | invalidArg (msg : String)
  | outOfRange
deriving DecidableEq, Repr

/-! ## Character and list utilities -/

/-- Value of a hexadecimal digit (both cases), `none` for non-hex characters.
Mirrors glibc `hex_digit_value`. -/
def hexDigitVal (c : Char) : Option Nat :=
  if '0' ≤ c ∧ c ≤ '9' then some (c.toNat - 48)
  else if 'a' ≤ c ∧ c ≤ 'f' then some (c.toNat - 87)
  else if 'A' ≤ c ∧ c ≤ 'F' then some (c.toNat - 55)
  else none

/-- Total hex-digit value used on already-validated groups. -/
def hexCharVal (c : Char) : Nat := (hexDigitVal c).getD 0

/-- Decimal value of an ASCII digit. -/
def decDigitVal (c : Char) : Nat := c.toNat - 48

/-- Accumulating decimal value of a digit list (most significant first). -/
def decValAux (acc : Nat) : List Char → Nat
  | [] => acc
  | c :: cs => decValAux (acc * 10 + decDigitVal c) cs

/-- Decimal value denoted by a list of ASCII digits. -/
def decVal (cs : List Char) : Nat := decValAux 0 cs

/-- Accumulating hexadecimal value of a digit list (most significant first). -/
def hexValAux (acc : Nat) : List Char → Nat
  | [] => acc
  | c :: cs => hexValAux (acc * 16 + hexCharVal c) cs

/-- Hexadecimal value denoted by a list of hex digits. -/
def hexVal (cs : List Char) : Nat := hexValAux 0 cs

/-- ASCII character of a decimal digit. -/
def decDigitChar (n : Nat) : Char := Char.ofNat (48 + n)

/-- Lowercase ASCII character of a hexadecimal digit, as printed by `%x`. -/
def hexDigitChar (n : Nat) : Char :=
  if n < 10 then Char.ofNat (48 + n) else Char.ofNat (87 + n)

/-- Drop leading `'0'` characters but keep the last character. -/
def stripZeros : List Char → List Char
  | '0' :: c :: cs => stripZeros (c :: cs)
  | cs => cs

/-- Decimal rendering of one byte value (0..255), as printed by `%u`
in glibc `inet_ntop4`'s `sprintf(tmp, "%u.%u.%u.%u", ...)`. -/
def decOctetChars (n : Nat) : List Char :=
  stripZeros [decDigitChar (n / 100 % 10), decDigitChar (n / 10 % 10),
              decDigitChar (n % 10)]

/-- Lowercase hexadecimal rendering of one 16-bit word (0..65535), as printed
by `sprintf(tp, "%x", words[i])` in glibc `inet_ntop6`. -/
def toHexChars (n : Nat) : List Char :=
  stripZeros [hexDigitChar (n / 4096 % 16), hexDigitChar (n / 256 % 16),
              hexDigitChar (n / 16 % 16), hexDigitChar (n % 16)]

/-- Split a character list at every occurrence of `sep`; always returns a
non-empty list of (possibly empty) parts. -/
def splitOnChar (sep : Char) : List Char → List (List Char)
  | [] => [[]]
  | c :: cs =>
    if c = sep then [] :: splitOnChar sep cs
    else
      match splitOnChar sep cs with
      | [] => [[c]]
      | t :: ts => (c :: t) :: ts

/-- Join parts with a single separator character (inverse of `splitOnChar`). -/
def joinSep (sep : Char) : List (List Char) → List Char
  | [] => []
  | g :: gs =>
    match gs with
    | [] => g
    | _ :: _ => g ++ sep :: joinSep sep gs

/-- Index of the first character satisfying `p` (mirrors `std::string::find`
returning `npos` as `none`). -/
def firstIdx (p : Char → Bool) : List Char → Option Nat
  | [] => none
  | c :: cs => if p c then some 0 else (firstIdx p cs).map (· + 1)

/-! ## IPv4 parsing and canonical re-serialization

`Arguments::parseIpAddress` calls `inet_pton(AF_INET, ...)` and re-serializes
a successful parse with `inet_ntop`.  The models below follow the glibc
implementations: `inet_pton4` accepts exactly four dot-separated decimal
octets, each 0..255 with no leading zeros (a digit after a leading `'0'`
is rejected by the `saw_digit && *tp == 0` check), no signs, no blanks;
`inet_ntop4` prints `"%u.%u.%u.%u"`. -/

/-- Parse one decimal octet exactly as glibc `inet_pton4` accepts it inside
one dot-separated field. -/
def parseOctet (cs : List Char) : Option Nat :=
  if cs ≠ [] ∧ cs.all Char.isDigit ∧ (cs.length = 1 ∨ cs.head? ≠ some '0') ∧
      decVal cs ≤ 255 then
    some (decVal cs)
  else none

/-- Model of glibc `inet_pton(AF_INET, ·)`: the four parsed bytes. -/
def pton4 (cs : List Char) : Option (List Nat) :=
  match splitOnChar '.' cs with
  | [a, b, c, d] =>
    match parseOctet a, parseOctet b, parseOctet c, parseOctet d with
    | some x, some y, some z, some w => some [x, y, z, w]
    | _, _, _, _ => none
  | _ => none

/-- Model of glibc `inet_ntop(AF_INET, ·)`: dotted-decimal form of 4 bytes. -/
def ntop4 (bs : List Nat) : List Char :=
  joinSep '.' (bs.map decOctetChars)

/-! ## IPv6 parsing and canonical re-serialization

Models of glibc `inet_pton(AF_INET6, ·)` and `inet_ntop(AF_INET6, ·)`
(resolv/inet_pton.c, resolv/inet_ntop.c).  `inet_pton6` scans
colon-separated groups of at most four hex digits, allows at most one `"::"`
(which must stand for at least one zero word), and allows a trailing
embedded IPv4 literal standing for the last two words.  The declarative
model below accepts exactly the same strings: the scan's `colonp` marker
corresponds to the leftmost `"::"` occurrence, and every other adjacency of
colons (leading, trailing, or a second `"::"`) surfaces as an empty group,
which is rejected. -/

/-- Split at the leftmost `"::"` occurrence, if any. -/
def splitDC : List Char → Option (List Char × List Char)
  | [] => none
  | c :: rest =>
    if c = ':' ∧ rest.head? = some ':' then some ([], rest.tail)
    else (splitDC rest).map (fun p => (c :: p.1, p.2))

/-- A valid colon-separated group: one to four hex digits
(glibc rejects a fifth digit via `xdigits_seen == 4`). -/
def isHexGroup (cs : List Char) : Bool :=
  !cs.isEmpty && cs.length ≤ 4 && cs.all (fun c => (hexDigitVal c).isSome)

/-- Interpret all groups as 16-bit hex words. -/
def hexWords (gs : List (List Char)) : Option (List Nat) :=
  if gs.all isHexGroup then some (gs.map hexVal) else none

/-- Interpret a group list as words, where the last group may be an embedded
IPv4 literal (it contains a dot and is handed to `inet_pton4`, yielding two
words), mirroring the `'.'` branch of glibc `inet_pton6`. -/
def groupWords (gs : List (List Char)) : Option (List Nat) :=
  match gs.getLast? with
  | none => some []
  | some lastG =>
    if lastG.any (fun c => c = '.') then
      match hexWords gs.dropLast, pton4 lastG with
      | some ws, some [a, b, c, d] => some (ws ++ [a * 256 + b, c * 256 + d])
      | _, _ => none
    else hexWords gs

/-- The `"::"` case of `inet_pton6`: groups to the left of the marker are
hex words, groups to the right may end in an embedded IPv4 literal, and the
marker must stand for at least one zero word (at most 7 words besides it). -/
def pton6dc (l r : List Char) : Option (List Nat) :=
  match hexWords (if l.isEmpty then [] else splitOnChar ':' l),
      groupWords (if r.isEmpty then [] else splitOnChar ':' r) with
  | some lw, some rw =>
    if lw.length + rw.length ≤ 7 then
      some (lw ++ List.replicate (8 - lw.length - rw.length) 0 ++ rw)
    else none
  | _, _ => none

/-- Model of glibc `inet_pton(AF_INET6, ·)`: the eight parsed 16-bit words. -/
def pton6 (cs : List Char) : Option (List Nat) :=
  match splitDC cs with
  | none =>
    match groupWords (splitOnChar ':' cs) with
    | some ws => if ws.length = 8 then some ws else none
    | none => none
  | some (l, r) => pton6dc l r

/-- One step of glibc `inet_ntop6`'s best-zero-run scan: `cur` is the open
run, `best` the best closed run so far; a closed run replaces `best` only
when strictly longer (`cur.len > best.len`), so the first longest run wins. -/
def mergeRun : Option (Nat × Nat) → Option (Nat × Nat) → Option (Nat × Nat)
  | none, best => best
  | some c, none => some c
  | some c, some b => if b.2 < c.2 then some c else some b

/-- Best-zero-run scan over the zero/non-zero pattern of the words. -/
def bestRunAux : Nat → Option (Nat × Nat) → Option (Nat × Nat) →
    List Bool → Option (Nat × Nat)
  | _, cur, best, [] => mergeRun cur best
  | i, cur, best, b :: bs =>
    if b then
      match cur with
      | none => bestRunAux (i + 1) (some (i, 1)) best bs
      | some (cb, cl) => bestRunAux (i + 1) (some (cb, cl + 1)) best bs
    else bestRunAux (i + 1) none (mergeRun cur best) bs

/-- Best zero run of a boolean pattern, kept only when of length ≥ 2
(glibc: `if (best.len < 2) best.base = -1;`). -/
def patRun (l : List Bool) : Option (Nat × Nat) :=
  match bestRunAux 0 none none l with
  | some (b, n) => if 2 ≤ n then some (b, n) else none
  | none => none

/-- Base and length of the zero-word run that glibc `inet_ntop6` compresses
to `"::"`, if any. -/
def bestZeroRun (ws : List Nat) : Option (Nat × Nat) :=
  patRun (ws.map (· == 0))

/-- Model of glibc `inet_ntop(AF_INET6, ·)`.  The print loop is rendered
structurally: outside a compressed run the words are printed as lowercase
hex groups joined by `':'`; the run itself prints as `"::"`.  The embedded
IPv4 special case triggers at print position 6 when the run starts at 0 and
has length 6 (IPv4-compatible) or length 5 with `words[5] == 0xffff`
(IPv4-mapped); the third disjunct of the glibc condition (`best.len == 7`)
is unreachable because position 6 then lies inside the skipped run. -/
def ntop6 (ws : List Nat) : List Char :=
  match bestZeroRun ws with
  | none => joinSep ':' (ws.map toHexChars)
  | some (b, n) =>
    if b = 0 ∧ n = 6 then
      ':' :: ':' :: ntop4 [ws.getD 6 0 / 256, ws.getD 6 0 % 256,
        ws.getD 7 0 / 256, ws.getD 7 0 % 256]
    else if b = 0 ∧ n = 5 ∧ ws.getD 5 0 = 65535 then
      (':' :: ':' :: toHexChars 65535) ++
        ':' :: ntop4 [ws.getD 6 0 / 256, ws.getD 6 0 % 256,
          ws.getD 7 0 / 256, ws.getD 7 0 % 256]
    else
      joinSep ':' ((ws.take b).map toHexChars) ++
        ':' :: ':' :: joinSep ':' ((ws.drop (b + n)).map toHexChars)

/-! ## parseIpAddress -/

/-- Core of `Arguments::parseIpAddress`: try `inet_pton(AF_INET)`, then
`inet_pton(AF_INET6)`, and re-serialize the binary result with `inet_ntop`
of the detected family. -/
def parseIpCore (cs : List Char) : Option (IpVer × List Char) :=
  match pton4 cs with
  | some bs => some (.v4, ntop4 bs)
  | none =>
    match pton6 cs with
    | some ws => some (.v6, ntop6 ws)
    | none => none

/-- Model of `Arguments::parseIpAddress` (throwing variant). -/
def parseIpAddress (s : String) : Except Err (IpVer × String) :=
  match parseIpCore s.data with
  | some (v, c) => .ok (v, String.mk c)
  | none => .error (.invalidArg ("Invalid IP address: " ++ s))

/-! ## Token cursor -/

/-- The `Arguments` cursor: the token list (`std::vector<char*> args`) and the
current position (`Args::const_iterator current`), as an index. -/
structure Arguments where
  args : List String
  current : Nat
deriving DecidableEq, Repr

/-- Model of `Arguments::peek`: the current token, or `none` at the end. -/
def Arguments.peek (a : Arguments) : Option String :=
  a.args.get? a.current

/-- Model of `Arguments::peekNext`: the token one past the current one. -/
def Arguments.peekNext (a : Arguments) : Option String :=
  match a.peek with
  | some _ => if a.current + 1 = a.args.length then none
              else a.args.get? (a.current + 1)
  | none => none

/-- Model of `Arguments::operator++`: advance, failing at the end. -/
def Arguments.inc (a : Arguments) : Except Err Arguments :=
  if a.current = a.args.length then .error (.invalidArg "Not enough arguments")
  else .ok { a with current := a.current + 1 }

/-- Model of `Arguments::expectEnd`: fail naming the first unconsumed token
when the cursor is not at the end.  The C++ method is `const`; here it
returns no state at all. -/
def Arguments.expectEnd (a : Arguments) : Except Err Unit :=
  if a.current ≠ a.args.length then
    .error (.invalidArg ("Unexpected arguments: " ++
      (a.args.getD a.current "")))
  else .ok ()

/-- Model of `Arguments::asText`: `peek` then `operator++`.  When the cursor
is at the end, `peek` yields null and `operator++` throws, so a successful
call always returns an actual token. -/
def Arguments.asText (a : Arguments) : Except Err (String × Arguments) :=
  match a.peek with
  | some t =>
    match a.inc with
    | .ok a2 => .ok (t, a2)
    | .error e => .error e
  | none =>
    match a.inc with
    | .ok _ => .error (.invalidArg "Not enough arguments")
    | .error e => .error e

/-! ## Numeric token classifier and asNumber -/

/-- Model of `Arguments::isNumber` on the character list: non-empty, at most
`maxNumericLen = 10` characters, all ASCII digits (`isdigit` in the C
locale). -/
def isNumberL (cs : List Char) : Bool :=
  !cs.isEmpty && cs.length ≤ 10 && cs.all Char.isDigit

/-- Model of `Arguments::isNumber` on a (non-null) token. -/
def isNumber (s : String) : Bool := isNumberL s.data

/-- Octal digit test used by `strtoul` base detection. -/
def isOctDigitC (c : Char) : Bool := '0' ≤ c && c ≤ '7'

/-- Accumulating octal value of a digit list. -/
def octValAux (acc : Nat) : List Char → Nat
  | [] => acc
  | c :: cs => octValAux (acc * 8 + decDigitVal c) cs

/-- Octal value denoted by a list of octal digits. -/
def octVal (cs : List Char) : Nat := octValAux 0 cs

/-- Model of C `strtoul(arg, nullptr, 0)` on the tokens that reach it in this
code: every call site first checks `isNumber`, so the argument is 1..10
ASCII digits (no sign, no blanks, no `0x` prefix, and — on an LP64 build —
no overflow, since 9999999999 < 2^64).  Base auto-detection applies: a
leading `'0'` selects octal, and parsing stops at the first character that
is not a digit of the selected base. -/
def strtoul0 (cs : List Char) : Nat :=
  match cs with
  | '0' :: rest => octVal (rest.takeWhile isOctDigitC)
  | _ => decVal (cs.takeWhile Char.isDigit)

/-- Model of `Arguments::asNumber`: consume one token, require `isNumber`,
convert with `strtoul(arg, nullptr, 0)`. -/
def Arguments.asNumber (a : Arguments) : Except Err (Nat × Arguments) :=
  match a.asText with
  | .error e => .error e
  | .ok (t, a2) =>
    if isNumber t then .ok (strtoul0 t.data, a2)
    else .error (.invalidArg ("Invalid numeric argument: " ++ t))

/-! ## asIpAddress and asIpAddrMask -/

/-- Model of `Arguments::asIpAddress`: consume one token, delegate to
`parseIpAddress`, and re-raise with the unified message on failure. -/
def Arguments.asIpAddress (a : Arguments) :
    Except Err ((IpVer × String) × Arguments) :=
  match a.asText with
  | .error e => .error e
  | .ok (t, a2) =>
    match parseIpCore t.data with
    | some (v, c) => .ok ((v, String.mk c), a2)
    | none => .error (.invalidArg ("Invalid IP address: " ++ t ++
        ", expected IPv4 or IPv6 address"))

/-- Split at the last occurrence of `sep` (mirrors `strrchr`): the part
before and the part after the last separator. -/
def splitLast (sep : Char) : List Char → Option (List Char × List Char)
  | [] => none
  | c :: cs =>
    match splitLast sep cs with
    | some (l, r) => some (c :: l, r)
    | none => if c = sep then some ([], cs) else none

/-- Model of `Arguments::asIpAddrMask`: consume one token; split at the last
`'/'` if present; with a suffix, require `isNumber`, a parsable address part
and a `strtoul(..., 0)` value in 1..32 (v4) / 1..64 (v6); without `'/'`,
fall back to the default per-version length 24 / 64. -/
def Arguments.asIpAddrMask (a : Arguments) :
    Except Err ((IpVer × String × Nat) × Arguments) :=
  match a.asText with
  | .error e => .error e
  | .ok (t, a2) =>
    match splitLast '/' t.data with
    | some (addr, maskText) =>
      if isNumberL maskText then
        match parseIpCore addr with
        | some (ver, ip) =>
          let len := strtoul0 maskText
          if len ≠ 0 ∧ ((ver = .v4 ∧ len ≤ 32) ∨ (ver = .v6 ∧ len ≤ 64)) then
            .ok ((ver, String.mk ip, len), a2)
          else
            .error (.invalidArg ("Invalid argument: " ++ t ++
              ", expected IP[/PREFIX] (e.g. 10.0.0.1/8 or 192.168.1.1)"))
        | none =>
          .error (.invalidArg ("Invalid argument: " ++ t ++
            ", expected IP[/PREFIX] (e.g. 10.0.0.1/8 or 192.168.1.1)"))
      else
        .error (.invalidArg ("Invalid argument: " ++ t ++
          ", expected IP[/PREFIX] (e.g. 10.0.0.1/8 or 192.168.1.1)"))
    | none =>
      match parseIpCore t.data with
      | some (ver, ip) =>
        .ok ((ver, String.mk ip, if ver = .v4 then 24 else 64), a2)
      | none =>
        .error (.invalidArg ("Invalid argument: " ++ t ++
          ", expected IP[/PREFIX] (e.g. 10.0.0.1/8 or 192.168.1.1)"))

/-! ## FQDN matching and asIpOrFQDN -/

/-- Case-insensitive alphanumeric (the regex classes `[a-z0-9]` under
`icase`). -/
def isAlphaNumI (c : Char) : Bool :=
  c.isDigit || ('a' ≤ c && c ≤ 'z') || ('A' ≤ c && c ≤ 'Z')

/-- Letters, digits and hyphen (the regex class `[a-z0-9-]` under `icase`). -/
def isLdh (c : Char) : Bool := isAlphaNumI c || c = '-'

/-- One non-final label of the FQDN regex:
`(?!-)[a-z0-9-]{0,62}[a-z0-9]` — 1..63 LDH characters, not starting with a
hyphen, ending alphanumeric. -/
def innerLabelOk (l : List Char) : Bool :=
  !l.isEmpty && l.length ≤ 63 && l.all isLdh &&
    !(l.head? = some '-') &&
    (match l.getLast? with | some c => isAlphaNumI c | none => false)

/-- The final label of the FQDN regex:
`(?![0-9-])[a-z0-9-]{0,62}[a-z0-9]` — additionally must not start with a
digit. -/
def lastLabelOk (l : List Char) : Bool :=
  !l.isEmpty && l.length ≤ 63 && l.all isLdh &&
    !(match l.head? with | some c => c.isDigit || c = '-' | none => true) &&
    (match l.getLast? with | some c => isAlphaNumI c | none => false)

/-- Model of the FQDN regular expression of `Arguments::asIpOrFQDN`:

`(?=^.{1,255}$)(^((?!-)[a-z0-9-]{0,62}[a-z0-9]\.){0,126}`
`((?![0-9-])[a-z0-9-]{0,62}[a-z0-9]\.?)$)` with `icase`.

The lookahead bounds the total length to 1..255; the body is up to 126
dot-terminated non-final labels followed by a final label with an optional
trailing dot.  Since `'.'` occurs in the pattern only as the separator, a
match decomposes uniquely: strip one trailing dot if present, split the rest
at every dot, and check each piece. -/
def fqdnMatch (cs : List Char) : Bool :=
  1 ≤ cs.length && cs.length ≤ 255 &&
    (let body := if cs.getLast? = some '.' then cs.dropLast else cs
     let labels := splitOnChar '.' body
     labels.length ≤ 127 &&
       (match labels.getLast? with | some l => lastLabelOk l | none => false) &&
       labels.dropLast.all innerLabelOk)

/-- Core of `Arguments::asIpOrFQDN` on a given string (the code path used
both for a consumed token and for the pre-supplied `param`): first try
`parseIpAddress` and return its canonical form, otherwise match the FQDN
regex and return the string unchanged. -/
def ipOrFqdnStr (s : String) : Except Err String :=
  match parseIpCore s.data with
  | some (_, addr) => .ok (String.mk addr)
  | none =>
    if fqdnMatch s.data then .ok s
    else .error (.invalidArg ("Invalid argument: " ++ s ++
      ", expected IP address or FQDN. " ++
      "Please, enter IPv4-addresses in dotted-decimal format."))

/-- Model of `Arguments::asIpOrFQDN()` consuming one token. -/
def Arguments.asIpOrFQDN (a : Arguments) : Except Err (String × Arguments) :=
  match a.asText with
  | .error e => .error e
  | .ok (t, a2) =>
    match ipOrFqdnStr t with
    | .ok h => .ok (h, a2)
    | .error e => .error e

/-! ## Port parsing and parseAddrAndPort -/

/-- Blank characters skipped by `std::stoi` (C locale `isspace`). -/
def isSpaceC (c : Char) : Bool :=
  c = ' ' || c = '\t' || c = '\n' || c = '\x0b' || c = '\x0c' || c = '\r'

/-- Possible outcomes of `std::stoi`. -/
inductive StoiOut
  | val (n : Int)
  | noConv
  | oor
deriving DecidableEq, Repr

/-- Continuation of the `std::stoi` model after blank skipping and sign
detection: `neg` is whether a `'-'` was seen, `t` the remaining text. -/
def stoiCore (neg : Bool) (t : List Char) : StoiOut :=
  let ds := t.takeWhile Char.isDigit
  if ds.isEmpty then .noConv
  else
    let m : Int := (decVal ds : Nat)
    let v : Int := if neg then -m else m
    if v < -2147483648 ∨ 2147483647 < v then .oor else .val v

/-- Model of `std::stoi(str)` (base 10): skip leading blanks, an optional
sign, then the maximal run of decimal digits; `noConv` (throwing
`std::invalid_argument`) when that run is empty, `oor` (throwing
`std::out_of_range`) when the signed value does not fit in a 32-bit `int`;
trailing characters are ignored. -/
def stoiModel (cs : List Char) : StoiOut :=
  match cs.dropWhile isSpaceC with
  | '-' :: rest => stoiCore true rest
  | '+' :: rest => stoiCore false rest
  | t => stoiCore false t

/-- The default syslog port applied when the endpoint omits one. -/
def syslogDefPort : Nat := 514

/-- Model of `Arguments::parsePortFromString`: `std::stoi`, accept values in
`1..UINT16_MAX`; only `std::invalid_argument` from `stoi` is caught, so an
out-of-`int`-range numeral propagates `std::out_of_range`. -/
def parsePortFromString (s : String) : Except Err Nat :=
  match stoiModel s.data with
  | .val p =>
    if 0 < p ∧ p ≤ 65535 then .ok p.toNat
    else .error (.invalidArg ("Invalid port number: " ++ s ++
      ", expected an integer in the range 1 - 65535"))
  | .noConv => .error (.invalidArg ("Invalid port number: " ++ s ++
      ", expected an integer in the range 1 - 65535"))
  | .oor => .error .outOfRange

/-- Model of `Arguments::setDefaultPort`: validate via `asIpOrFQDN` and pair
with the default syslog port. -/
def setDefaultPortStr (s : String) : Except Err (String × Nat) :=
  match ipOrFqdnStr s with
  | .ok h => .ok (h, syslogDefPort)
  | .error e => .error e

/-- Model of `std::string::substr(pos)`: throws `std::out_of_range` when
`pos > size()`. -/
def substrFrom (cs : List Char) (pos : Nat) : Except Err (List Char) :=
  if pos ≤ cs.length then .ok (cs.drop pos) else .error .outOfRange

/-- The token-level logic of `Arguments::parseAddrAndPort` (which only ever
`peek`s): dispatch on the number of colons in the token.  In the bracket
branch, `delim` is the position of the first `']'`; when there is none,
`std::string::find` yields `npos` and `substr(1, npos - 1)` /
`substr(npos + 2)` become `substr(1, ...)` / `substr(1)` by `size_t`
clamping and wraparound. -/
def addrPortOfToken : Option String → Except Err (String × Nat)
  | none => .ok ("", 0)
  | some srv =>
    let cs := srv.data
    if cs.count ':' = 0 then
      setDefaultPortStr srv
    else if cs.count ':' = 1 then
      match firstIdx (· = ':') cs with
      | some d =>
        match ipOrFqdnStr (String.mk (cs.take d)) with
        | .ok h =>
          match parsePortFromString (String.mk (cs.drop (d + 1))) with
          | .ok p => .ok (h, p)
          | .error e => .error e
        | .error e => .error e
      | none => .ok ("", 0)
    else
      if cs.head? = some '[' then
        match firstIdx (· = ']') cs with
        | some d =>
          match ipOrFqdnStr (String.mk ((cs.drop 1).take (d - 1))) with
          | .ok h =>
            match substrFrom cs (d + 2) with
            | .ok rest =>
              match parsePortFromString (String.mk rest) with
              | .ok p => .ok (h, p)
              | .error e => .error e
            | .error e => .error e
          | .error e => .error e
        | none =>
          match ipOrFqdnStr (String.mk (cs.drop 1)) with
          | .ok h =>
            match substrFrom cs 1 with
            | .ok rest =>
              match parsePortFromString (String.mk rest) with
              | .ok p => .ok (h, p)
              | .error e => .error e
            | .error e => .error e
          | .error e => .error e
      else
        setDefaultPortStr srv

/-- Model of `Arguments::parseAddrAndPort`: the result starts as `("", 0)`,
the current token is only inspected via `peek()` (never consumed), and the
cursor is returned unchanged in every branch. -/
def Arguments.parseAddrAndPort (a : Arguments) :
    Except Err ((String × Nat) × Arguments) :=
  match a.peek with
  | none => .ok (("", 0), a)
  | some srv =>
    match addrPortOfToken (some srv) with
    | .ok r => .ok (r, a)
    | .error e => .error e

/-! ## Lemmas about the list utilities -/

theorem splitOnChar_ne_nil (sep : Char) (cs : List Char) :
    splitOnChar sep cs ≠ [] := by
  induction cs with
  | nil => simp [splitOnChar]
  | cons c cs ih =>
    simp only [splitOnChar]
    split
    · simp
    · cases h : splitOnChar sep cs with
      | nil => simp
      | cons t ts => simp

theorem joinSep_cons₂ (sep : Char) (g g2 : List Char) (gs : List (List Char)) :
    joinSep sep (g :: g2 :: gs) = g ++ sep :: joinSep sep (g2 :: gs) := rfl

theorem joinSep_splitOnChar (sep : Char) (cs : List Char) :
    joinSep sep (splitOnChar sep cs) = cs := by
  induction cs with
  | nil => rfl
  | cons c cs ih =>
    simp only [splitOnChar]
    by_cases h : c = sep
    · rw [if_pos h]
      cases hs : splitOnChar sep cs with
      | nil => exact absurd hs (splitOnChar_ne_nil sep cs)
      | cons t ts =>
        rw [hs] at ih
        rw [joinSep_cons₂, ih, h]
        rfl
    · rw [if_neg h]
      cases hs : splitOnChar sep cs with
      | nil => exact absurd hs (splitOnChar_ne_nil sep cs)
      | cons t ts =>
        rw [hs] at ih
        cases ts with
        | nil =>
          simp only [joinSep] at ih ⊢
          rw [← ih]
        | cons t2 ts2 =>
          rw [joinSep_cons₂] at ih ⊢
          simp only [List.cons_append, ih]

theorem splitOnChar_append_noSep (sep : Char) (g cs : List Char)
    (hg : sep ∉ g) :
    splitOnChar sep (g ++ sep :: cs) = g :: splitOnChar sep cs := by
  induction g with
  | nil => simp [splitOnChar]
  | cons c g ih =>
    have hc : ¬(c = sep) := fun h => hg (h ▸ List.mem_cons_self c g)
    have hg2 : sep ∉ g := fun h => hg (List.mem_cons_of_mem c h)
    simp only [List.cons_append, splitOnChar, if_neg hc, List.append_eq]
    rw [ih hg2]

theorem splitOnChar_noSep (sep : Char) (g : List Char) (hg : sep ∉ g) :
    splitOnChar sep g = [g] := by
  induction g with
  | nil => rfl
  | cons c g ih =>
    have hc : ¬(c = sep) := fun h => hg (h ▸ List.mem_cons_self c g)
    have hg2 : sep ∉ g := fun h => hg (List.mem_cons_of_mem c h)
    simp only [splitOnChar, if_neg hc, ih hg2]

theorem splitOnChar_joinSep (sep : Char) :
    ∀ gs : List (List Char), gs ≠ [] → (∀ g ∈ gs, sep ∉ g) →
      splitOnChar sep (joinSep sep gs) = gs := by
  intro gs
  induction gs with
  | nil => intro h; exact absurd rfl h
  | cons g gs ih =>
    intro _ hmem
    cases gs with
    | nil => exact splitOnChar_noSep sep g (hmem g (List.mem_cons_self g []))
    | cons g2 gs2 =>
      rw [joinSep_cons₂,
        splitOnChar_append_noSep sep g _ (hmem g (List.mem_cons_self g _)),
        ih (by simp) (fun x hx => hmem x (List.mem_cons_of_mem g hx))]

theorem mem_joinSep {sep x : Char} :
    ∀ {gs : List (List Char)}, x ∈ joinSep sep gs →
      x = sep ∨ ∃ g ∈ gs, x ∈ g := by
  intro gs
  induction gs with
  | nil => intro h; simp [joinSep] at h
  | cons g gs ih =>
    intro h
    cases gs with
    | nil =>
      right
      exact ⟨g, List.mem_cons_self g [], h⟩
    | cons g2 gs2 =>
      rw [joinSep_cons₂] at h
      rcases List.mem_append.mp h with hg | hrest
      · exact Or.inr ⟨g, List.mem_cons_self g _, hg⟩
      · rcases List.mem_cons.mp hrest with hx | hx
        · exact Or.inl hx
        · rcases ih hx with h1 | ⟨g3, hg3, hxg3⟩
          · exact Or.inl h1
          · exact Or.inr ⟨g3, List.mem_cons_of_mem g hg3, hxg3⟩

theorem joinSep_ne_nil {sep : Char} {g : List Char} {gs : List (List Char)}
    (hg : g ≠ []) : joinSep sep (g :: gs) ≠ [] := by
  cases gs with
  | nil => exact hg
  | cons g2 gs2 => rw [joinSep_cons₂]; simp [hg]

/-! ## Lemmas about splitDC -/

theorem splitDC_append_noColon (a : List Char) (b : List Char)
    (ha : ':' ∉ a) :
    splitDC (a ++ b) = (splitDC b).map (fun p => (a ++ p.1, p.2)) := by
  induction a with
  | nil =>
    simp only [List.nil_append]
    cases splitDC b with
    | none => rfl
    | some p => rfl
  | cons c a ih =>
    have hc : ¬(c = ':') := fun h => ha (h ▸ List.mem_cons_self c a)
    have ha2 : ':' ∉ a := fun h => ha (List.mem_cons_of_mem c h)
    have hcond : ¬(c = ':' ∧ (a ++ b).head? = some ':') := fun h => hc h.1
    simp only [List.cons_append, splitDC, List.append_eq, if_neg hcond,
      ih ha2]
    cases splitDC b with
    | none => rfl
    | some p => rfl

theorem splitDC_none_of_noColon (g : List Char) (hg : ':' ∉ g) :
    splitDC g = none := by
  have h := splitDC_append_noColon g [] hg
  simpa [splitDC] using h

theorem splitDC_dc (b : List Char) : splitDC (':' :: ':' :: b) = some ([], b) := by
  simp [splitDC]

theorem splitDC_colon_cons (b : List Char) (hb : b.head? ≠ some ':') :
    splitDC (':' :: b) = (splitDC b).map (fun p => (':' :: p.1, p.2)) := by
  have hcond : ¬((':' : Char) = ':' ∧ b.head? = some ':') := fun h => hb h.2
  show (if (':' : Char) = ':' ∧ b.head? = some ':' then some (([] : List Char), b.tail)
        else (splitDC b).map (fun p => (':' :: p.1, p.2))) = _
  rw [if_neg hcond]

theorem head?_joinSep {g : List Char} {gs : List (List Char)} (hg : g ≠ []) :
    (joinSep ':' (g :: gs)).head? = g.head? := by
  cases gs with
  | nil => rfl
  | cons g2 gs2 =>
    rw [joinSep_cons₂]
    cases g with
    | nil => exact absurd rfl hg
    | cons c g' => rfl

theorem splitDC_joinSep_none (gs : List (List Char))
    (hg : ∀ g ∈ gs, g ≠ [] ∧ ':' ∉ g) :
    splitDC (joinSep ':' gs) = none := by
  induction gs with
  | nil => simp [joinSep, splitDC]
  | cons g gs ih =>
    cases gs with
    | nil => exact splitDC_none_of_noColon g (hg g (List.mem_cons_self g [])).2
    | cons g2 gs2 =>
      rw [joinSep_cons₂,
        splitDC_append_noColon g _ (hg g (List.mem_cons_self g _)).2]
      have hg2p := hg g2 (by simp)
      have hhead : (joinSep ':' (g2 :: gs2)).head? ≠ some ':' := by
        rw [head?_joinSep hg2p.1]
        cases g2 with
        | nil => exact absurd rfl hg2p.1
        | cons c2 g2' =>
          have hc2 : c2 ≠ ':' := fun h =>
            hg2p.2 (h ▸ List.mem_cons_self c2 g2')
          simpa using hc2
      rw [splitDC_colon_cons _ hhead,
        ih (fun x hx => hg x (List.mem_cons_of_mem g hx))]
      rfl

theorem head?_append_of_ne_nil {l l' : List Char} (h : l ≠ []) :
    (l ++ l').head? = l.head? := by
  cases l with
  | nil => exact absurd rfl h
  | cons c cs => rfl

theorem splitDC_joinSep_dc (gs : List (List Char)) (rest : List Char)
    (hg : ∀ g ∈ gs, g ≠ [] ∧ ':' ∉ g) :
    splitDC (joinSep ':' gs ++ ':' :: ':' :: rest) =
      some (joinSep ':' gs, rest) := by
  induction gs with
  | nil => simpa [joinSep] using splitDC_dc rest
  | cons g gs ih =>
    cases gs with
    | nil =>
      have hgg := hg g (List.mem_cons_self g [])
      show splitDC (g ++ ':' :: ':' :: rest) = some (g, rest)
      rw [splitDC_append_noColon g _ hgg.2, splitDC_dc]
      simp
    | cons g2 gs2 =>
      have hgg := hg g (List.mem_cons_self g _)
      have hg2 : ∀ x ∈ g2 :: gs2, x ≠ [] ∧ ':' ∉ x :=
        fun x hx => hg x (List.mem_cons_of_mem g hx)
      rw [joinSep_cons₂, List.append_assoc, List.cons_append,
        splitDC_append_noColon g _ hgg.2]
      have hg2p := hg2 g2 (by simp)
      have hj : joinSep ':' (g2 :: gs2) ≠ [] := joinSep_ne_nil hg2p.1
      have hhead : (joinSep ':' (g2 :: gs2) ++ ':' :: ':' :: rest).head? ≠
          some ':' := by
        rw [head?_append_of_ne_nil hj, head?_joinSep hg2p.1]
        cases g2 with
        | nil => exact absurd rfl hg2p.1
        | cons c2 g2' =>
          have hc2 : c2 ≠ ':' := fun h =>
            hg2p.2 (h ▸ List.mem_cons_self c2 g2')
          simpa using hc2
      rw [splitDC_colon_cons _ hhead, ih hg2]
      simp [joinSep_cons₂]

/-! ## Lemmas about digit renderings -/

theorem stripZeros_eq_self (cs : List Char)
    (h : ∀ c rest, cs ≠ '0' :: c :: rest) : stripZeros cs = cs := by
  unfold stripZeros
  split
  · rename_i c rest
    exact absurd rfl (h c rest)
  · rfl

theorem stripZeros_suffix (cs : List Char) : (stripZeros cs).IsSuffix cs := by
  induction cs using stripZeros.induct with
  | case1 c cs ih =>
    rw [stripZeros]
    exact ih.trans (List.suffix_cons '0' (c :: cs))
  | case2 cs hshape =>
    rw [stripZeros_eq_self cs (fun c rest hh => hshape c rest hh)]

theorem stripZeros_ne_nil (cs : List Char) (h : cs ≠ []) :
    stripZeros cs ≠ [] := by
  induction cs using stripZeros.induct with
  | case1 c cs ih => rw [stripZeros]; exact ih (by simp)
  | case2 cs hshape =>
    rw [stripZeros_eq_self cs (fun c rest hh => hshape c rest hh)]; exact h

theorem stripZeros_not_zero_cons (cs : List Char) :
    ∀ c rest, stripZeros cs ≠ '0' :: c :: rest := by
  induction cs using stripZeros.induct with
  | case1 c cs ih => rw [stripZeros]; exact ih
  | case2 cs hshape =>
    rw [stripZeros_eq_self cs (fun c rest hh => hshape c rest hh)]
    intro c rest h
    exact hshape c rest h

theorem hexVal_stripZeros (cs : List Char) :
    hexVal (stripZeros cs) = hexVal cs := by
  induction cs using stripZeros.induct with
  | case1 c cs ih =>
    rw [stripZeros, ih]
    show hexVal (c :: cs) = hexValAux (0 * 16 + hexCharVal '0') (c :: cs)
    have h0 : (0 : Nat) * 16 + hexCharVal '0' = 0 := by decide
    rw [h0]
    rfl
  | case2 cs hshape =>
    rw [stripZeros_eq_self cs (fun c rest hh => hshape c rest hh)]

theorem decVal_stripZeros (cs : List Char) :
    decVal (stripZeros cs) = decVal cs := by
  induction cs using stripZeros.induct with
  | case1 c cs ih =>
    rw [stripZeros, ih]
    show decVal (c :: cs) = decValAux (0 * 10 + decDigitVal '0') (c :: cs)
    have h0 : (0 : Nat) * 10 + decDigitVal '0' = 0 := by decide
    rw [h0]
    rfl
  | case2 cs hshape =>
    rw [stripZeros_eq_self cs (fun c rest hh => hshape c rest hh)]

theorem hexCharVal_hexDigitChar : ∀ d : Fin 16,
    hexCharVal (hexDigitChar d.val) = d.val ∧
    (hexDigitVal (hexDigitChar d.val)).isSome = true ∧
    hexDigitChar d.val ≠ ':' ∧ hexDigitChar d.val ≠ '.' := by decide

theorem decDigitVal_decDigitChar : ∀ d : Fin 10,
    decDigitVal (decDigitChar d.val) = d.val ∧
    (decDigitChar d.val).isDigit = true := by decide

theorem toHexChars_spec (n : Nat) (hn : n < 65536) :
    isHexGroup (toHexChars n) = true ∧ hexVal (toHexChars n) = n := by
  have hd3 : n / 4096 % 16 < 16 := Nat.mod_lt _ (by norm_num)
  have hd2 : n / 256 % 16 < 16 := Nat.mod_lt _ (by norm_num)
  have hd1 : n / 16 % 16 < 16 := Nat.mod_lt _ (by norm_num)
  have hd0 : n % 16 < 16 := Nat.mod_lt _ (by norm_num)
  have h3 : hexCharVal (hexDigitChar (n / 4096 % 16)) = n / 4096 % 16 ∧
      (hexDigitVal (hexDigitChar (n / 4096 % 16))).isSome = true ∧
      hexDigitChar (n / 4096 % 16) ≠ ':' ∧ hexDigitChar (n / 4096 % 16) ≠ '.' :=
    hexCharVal_hexDigitChar ⟨n / 4096 % 16, hd3⟩
  have h2 : hexCharVal (hexDigitChar (n / 256 % 16)) = n / 256 % 16 ∧
      (hexDigitVal (hexDigitChar (n / 256 % 16))).isSome = true ∧
      hexDigitChar (n / 256 % 16) ≠ ':' ∧ hexDigitChar (n / 256 % 16) ≠ '.' :=
    hexCharVal_hexDigitChar ⟨n / 256 % 16, hd2⟩
  have h1 : hexCharVal (hexDigitChar (n / 16 % 16)) = n / 16 % 16 ∧
      (hexDigitVal (hexDigitChar (n / 16 % 16))).isSome = true ∧
      hexDigitChar (n / 16 % 16) ≠ ':' ∧ hexDigitChar (n / 16 % 16) ≠ '.' :=
    hexCharVal_hexDigitChar ⟨n / 16 % 16, hd1⟩
  have h0 : hexCharVal (hexDigitChar (n % 16)) = n % 16 ∧
      (hexDigitVal (hexDigitChar (n % 16))).isSome = true ∧
      hexDigitChar (n % 16) ≠ ':' ∧ hexDigitChar (n % 16) ≠ '.' :=
    hexCharVal_hexDigitChar ⟨n % 16, hd0⟩
  have hbase : toHexChars n =
      stripZeros [hexDigitChar (n / 4096 % 16), hexDigitChar (n / 256 % 16),
        hexDigitChar (n / 16 % 16), hexDigitChar (n % 16)] := rfl
  constructor
  · rw [hbase]
    simp only [isHexGroup, Bool.and_eq_true, List.all_eq_true]
    refine ⟨⟨?_, ?_⟩, ?_⟩
    · have := stripZeros_ne_nil
        [hexDigitChar (n / 4096 % 16), hexDigitChar (n / 256 % 16),
         hexDigitChar (n / 16 % 16), hexDigitChar (n % 16)] (by simp)
      simpa [List.isEmpty_iff] using this
    · have hle := (stripZeros_suffix
        [hexDigitChar (n / 4096 % 16), hexDigitChar (n / 256 % 16),
         hexDigitChar (n / 16 % 16), hexDigitChar (n % 16)]).sublist.length_le
      simp only [List.length_cons, List.length_nil] at hle
      simpa using hle
    · intro c hc
      have hc2 := (stripZeros_suffix _).subset hc
      simp only [List.mem_cons, List.not_mem_nil, or_false] at hc2
      rcases hc2 with rfl | rfl | rfl | rfl
      exacts [h3.2.1, h2.2.1, h1.2.1, h0.2.1]
  · rw [hbase, hexVal_stripZeros]
    show hexValAux 0 _ = n
    simp only [hexValAux]
    rw [h3.1, h2.1, h1.1, h0.1]
    omega

set_option maxRecDepth 8192 in
theorem decOctet_rt : ∀ n : Fin 256,
    parseOctet (decOctetChars n.val) = some n.val ∧
    decOctetChars n.val ≠ [] ∧
    ∀ c ∈ decOctetChars n.val, c.isDigit = true := by decide

theorem digit_ne_sep (c : Char) (h : c.isDigit = true) : c ≠ ':' ∧ c ≠ '.' := by
  constructor <;> rintro rfl <;> exact absurd h (by decide)

theorem hex_ne_sep (c : Char) (h : (hexDigitVal c).isSome = true) :
    c ≠ ':' ∧ c ≠ '.' := by
  constructor <;> rintro rfl <;> exact absurd h (by decide)

/-! ## Round trip for IPv4 -/

theorem pton4_ntop4 (bs : List Nat) (h4 : bs.length = 4)
    (hb : ∀ b ∈ bs, b < 256) : pton4 (ntop4 bs) = some bs := by
  match bs, h4 with
  | [a, b, c, d], _ =>
    have ha : parseOctet (decOctetChars a) = some a ∧ decOctetChars a ≠ [] ∧
        ∀ ch ∈ decOctetChars a, ch.isDigit = true :=
      decOctet_rt ⟨a, hb a (by simp)⟩
    have hbb : parseOctet (decOctetChars b) = some b ∧ decOctetChars b ≠ [] ∧
        ∀ ch ∈ decOctetChars b, ch.isDigit = true :=
      decOctet_rt ⟨b, hb b (by simp)⟩
    have hcc : parseOctet (decOctetChars c) = some c ∧ decOctetChars c ≠ [] ∧
        ∀ ch ∈ decOctetChars c, ch.isDigit = true :=
      decOctet_rt ⟨c, hb c (by simp)⟩
    have hdd : parseOctet (decOctetChars d) = some d ∧ decOctetChars d ≠ [] ∧
        ∀ ch ∈ decOctetChars d, ch.isDigit = true :=
      decOctet_rt ⟨d, hb d (by simp)⟩
    show pton4 (joinSep '.' [decOctetChars a, decOctetChars b,
      decOctetChars c, decOctetChars d]) = some [a, b, c, d]
    unfold pton4
    rw [splitOnChar_joinSep '.' _ (by simp) ?nosep]
    case nosep =>
      intro g hg
      simp only [List.mem_cons, List.not_mem_nil, or_false] at hg
      rcases hg with rfl | rfl | rfl | rfl
      · intro hdot
        exact absurd rfl (digit_ne_sep '.' (ha.2.2 '.' hdot)).2
      · intro hdot
        exact absurd rfl (digit_ne_sep '.' (hbb.2.2 '.' hdot)).2
      · intro hdot
        exact absurd rfl (digit_ne_sep '.' (hcc.2.2 '.' hdot)).2
      · intro hdot
        exact absurd rfl (digit_ne_sep '.' (hdd.2.2 '.' hdot)).2
    show (match parseOctet (decOctetChars a), parseOctet (decOctetChars b),
        parseOctet (decOctetChars c), parseOctet (decOctetChars d) with
      | some x, some y, some z, some w => some [x, y, z, w]
      | _, _, _, _ => none) = some [a, b, c, d]
    rw [ha.1, hbb.1, hcc.1, hdd.1]

theorem parseOctet_some {cs : List Char} {n : Nat}
    (h : parseOctet cs = some n) :
    n ≤ 255 ∧ cs ≠ [] ∧ (∀ c ∈ cs, c.isDigit = true) ∧ n = decVal cs := by
  unfold parseOctet at h
  split at h
  · rename_i hcond
    cases h
    exact ⟨hcond.2.2.2, hcond.1,
      by simpa [List.all_eq_true] using hcond.2.1, rfl⟩
  · cases h

theorem pton4_some_spec {cs : List Char} {bs : List Nat}
    (h : pton4 cs = some bs) :
    bs.length = 4 ∧ (∀ x ∈ bs, x < 256) ∧
      ∀ c ∈ cs, c.isDigit = true ∨ c = '.' := by
  unfold pton4 at h
  split at h
  · rename_i a b c d hsplit
    split at h
    · rename_i x y z w hx hy hz hw
      cases h
      have hxs := parseOctet_some hx
      have hys := parseOctet_some hy
      have hzs := parseOctet_some hz
      have hws := parseOctet_some hw
      refine ⟨rfl, ?_, ?_⟩
      · intro v hv
        simp only [List.mem_cons, List.not_mem_nil, or_false] at hv
        rcases hv with rfl | rfl | rfl | rfl <;> omega
      · intro ch hch
        have hcs : ch ∈ joinSep '.' [a, b, c, d] := by
          rw [← hsplit, joinSep_splitOnChar]
          exact hch
        rcases mem_joinSep hcs with hd | ⟨g, hg, hing⟩
        · exact Or.inr hd
        · simp only [List.mem_cons, List.not_mem_nil, or_false] at hg
          rcases hg with rfl | rfl | rfl | rfl
          exacts [Or.inl (hxs.2.2.1 ch hing), Or.inl (hys.2.2.1 ch hing),
            Or.inl (hzs.2.2.1 ch hing), Or.inl (hws.2.2.1 ch hing)]
    · cases h
  · cases h

theorem pton4_none_of_colon {cs : List Char} (h : ':' ∈ cs) :
    pton4 cs = none := by
  cases hp : pton4 cs with
  | none => rfl
  | some bs =>
    rcases (pton4_some_spec hp).2.2 ':' h with hd | hd
    · exact absurd hd (by decide)
    · exact absurd hd (by decide)

/-! ## Bounds and round trip for IPv6 groups -/

theorem hexCharVal_lt16 (c : Char) : hexCharVal c < 16 := by
  unfold hexCharVal hexDigitVal
  split
  · rename_i h
    rw [Char.le_def] at h
    have h2 : c.toNat ≤ 57 := by exact_mod_cast h.2
    simp only [Option.getD_some]
    omega
  · split
    · rename_i h
      rw [Char.le_def] at h
      have h2 : c.toNat ≤ 102 := by exact_mod_cast h.2
      simp only [Option.getD_some]
      omega
    · split
      · rename_i h
        rw [Char.le_def] at h
        have h2 : c.toNat ≤ 70 := by exact_mod_cast h.2
        simp only [Option.getD_some]
        omega
      · simp only [Option.getD_none]
        omega

theorem hexValAux_lt (cs : List Char) (acc : Nat) :
    hexValAux acc cs < (acc + 1) * 16 ^ cs.length := by
  induction cs generalizing acc with
  | nil => simpa [hexValAux] using Nat.lt_succ_self acc
  | cons c cs ih =>
    simp only [hexValAux, List.length_cons]
    have hc := hexCharVal_lt16 c
    calc hexValAux (acc * 16 + hexCharVal c) cs
        < (acc * 16 + hexCharVal c + 1) * 16 ^ cs.length := ih _
      _ ≤ ((acc + 1) * 16) * 16 ^ cs.length := by
          apply Nat.mul_le_mul_right
          omega
      _ = (acc + 1) * 16 ^ (cs.length + 1) := by ring

theorem hexVal_lt_of_isHexGroup {g : List Char} (h : isHexGroup g = true) :
    hexVal g < 65536 := by
  simp only [isHexGroup, Bool.and_eq_true] at h
  have hlen : g.length ≤ 4 := by simpa using h.1.2
  have := hexValAux_lt g 0
  have hpow : 16 ^ g.length ≤ 16 ^ 4 :=
    Nat.pow_le_pow_right (by norm_num) hlen
  calc hexVal g < (0 + 1) * 16 ^ g.length := this
    _ = 16 ^ g.length := by ring
    _ ≤ 16 ^ 4 := hpow
    _ = 65536 := by norm_num

theorem hexWords_map_toHex (l : List Nat) (h : ∀ w ∈ l, w < 65536) :
    hexWords (l.map toHexChars) = some l := by
  unfold hexWords
  rw [if_pos]
  · rw [List.map_map]
    congr 1
    have : ∀ w ∈ l, (hexVal ∘ toHexChars) w = id w := by
      intro w hw
      exact (toHexChars_spec w (h w hw)).2
    rw [List.map_congr_left this, List.map_id]
  · rw [List.all_eq_true]
    intro g hg
    rcases List.mem_map.mp hg with ⟨w, hw, rfl⟩
    exact (toHexChars_spec w (h w hw)).1

theorem hexWords_some_spec {gs : List (List Char)} {ws : List Nat}
    (h : hexWords gs = some ws) :
    ws = gs.map hexVal ∧ ∀ g ∈ gs, isHexGroup g = true := by
  unfold hexWords at h
  split at h
  · rename_i hall
    cases h
    exact ⟨rfl, by simpa [List.all_eq_true] using hall⟩
  · cases h

theorem toHexChars_props (w : Nat) (hw : w < 65536) :
    toHexChars w ≠ [] ∧ ':' ∉ toHexChars w ∧ '.' ∉ toHexChars w := by
  have hg := (toHexChars_spec w hw).1
  simp only [isHexGroup, Bool.and_eq_true, List.all_eq_true] at hg
  refine ⟨by simpa [List.isEmpty_iff] using hg.1.1, ?_, ?_⟩
  · intro hmem
    exact absurd rfl (hex_ne_sep ':' (hg.2 ':' hmem)).1
  · intro hmem
    exact absurd rfl (hex_ne_sep '.' (hg.2 '.' hmem)).2

theorem ntop4_props (bs : List Nat) (h4 : bs.length = 4)
    (hb : ∀ b ∈ bs, b < 256) :
    ntop4 bs ≠ [] ∧ ':' ∉ ntop4 bs ∧ '.' ∈ ntop4 bs := by
  match bs, h4 with
  | [a, b, c, d], _ =>
    have ha : parseOctet (decOctetChars a) = some a ∧ decOctetChars a ≠ [] ∧
        ∀ ch ∈ decOctetChars a, ch.isDigit = true :=
      decOctet_rt ⟨a, hb a (by simp)⟩
    have hbb : parseOctet (decOctetChars b) = some b ∧ decOctetChars b ≠ [] ∧
        ∀ ch ∈ decOctetChars b, ch.isDigit = true :=
      decOctet_rt ⟨b, hb b (by simp)⟩
    have hcc : parseOctet (decOctetChars c) = some c ∧ decOctetChars c ≠ [] ∧
        ∀ ch ∈ decOctetChars c, ch.isDigit = true :=
      decOctet_rt ⟨c, hb c (by simp)⟩
    have hdd : parseOctet (decOctetChars d) = some d ∧ decOctetChars d ≠ [] ∧
        ∀ ch ∈ decOctetChars d, ch.isDigit = true :=
      decOctet_rt ⟨d, hb d (by simp)⟩
    refine ⟨?_, ?_, ?_⟩
    · show joinSep '.' _ ≠ []
      exact joinSep_ne_nil ha.2.1
    · intro hmem
      rcases mem_joinSep hmem with hd | ⟨g, hg, hing⟩
      · exact absurd hd (by decide)
      · simp only [List.map_cons, List.map_nil, List.mem_cons,
          List.not_mem_nil, or_false] at hg
        rcases hg with rfl | rfl | rfl | rfl
        exacts [(digit_ne_sep ':' (ha.2.2 ':' hing)).1.elim rfl,
          (digit_ne_sep ':' (hbb.2.2 ':' hing)).1.elim rfl,
          (digit_ne_sep ':' (hcc.2.2 ':' hing)).1.elim rfl,
          (digit_ne_sep ':' (hdd.2.2 ':' hing)).1.elim rfl]
    · show '.' ∈ joinSep '.' ([a, b, c, d].map decOctetChars)
      simp only [List.map_cons, List.map_nil]
      rw [joinSep_cons₂]
      exact List.mem_append_right _ (List.mem_cons_self '.' _)

/-! ## Soundness of the best-zero-run scan -/

set_option maxRecDepth 2048 in
theorem patRun_sound : ∀ b0 b1 b2 b3 b4 b5 b6 b7 : Bool,
    ∀ p ∈ patRun [b0, b1, b2, b3, b4, b5, b6, b7],
      2 ≤ p.2 ∧ p.1 + p.2 ≤ 8 ∧
        (([b0, b1, b2, b3, b4, b5, b6, b7].drop p.1).take p.2 =
          List.replicate p.2 true) := by decide

theorem bestZeroRun_sound {ws : List Nat} (h8 : ws.length = 8) {b n : Nat}
    (h : bestZeroRun ws = some (b, n)) :
    2 ≤ n ∧ b + n ≤ 8 ∧ (ws.drop b).take n = List.replicate n 0 := by
  match ws, h8 with
  | [w0, w1, w2, w3, w4, w5, w6, w7], _ =>
    have hp := patRun_sound (w0 == 0) (w1 == 0) (w2 == 0) (w3 == 0)
      (w4 == 0) (w5 == 0) (w6 == 0) (w7 == 0) (b, n) h
    refine ⟨hp.1, hp.2.1, ?_⟩
    have hmap : (([w0, w1, w2, w3, w4, w5, w6, w7].drop b).take n).map
        (· == 0) = List.replicate n true := by
      rw [List.map_take, List.map_drop]
      exact hp.2.2
    have hlen : (([w0, w1, w2, w3, w4, w5, w6, w7].drop b).take n).length = n := by
      have := congrArg List.length hmap
      simpa using this
    rw [List.eq_replicate_iff]
    refine ⟨hlen, ?_⟩
    intro x hx
    have hxm : (x == 0) ∈ List.replicate n true := by
      rw [← hmap]
      exact List.mem_map_of_mem _ hx
    have := List.eq_of_mem_replicate hxm
    simpa using this

/-! ## Lemmas about groupWords -/

theorem getLast?_mem {α : Type} : ∀ {l : List α} {x : α},
    l.getLast? = some x → x ∈ l := by
  intro l
  induction l with
  | nil => intro x h; cases h
  | cons a l ih =>
    intro x h
    cases l with
    | nil =>
      simp only [List.getLast?_singleton, Option.some.injEq] at h
      simp [h]
    | cons b l2 =>
      rw [List.getLast?_cons_cons] at h
      exact List.mem_cons_of_mem a (ih h)

theorem groupWords_of_no_dot (gs : List (List Char))
    (h : ∀ g ∈ gs, '.' ∉ g) : groupWords gs = hexWords gs := by
  unfold groupWords
  split
  · rename_i hl
    rw [List.getLast?_eq_none_iff] at hl
    subst hl
    simp [hexWords]
  · rename_i lastG hl
    have hmem := getLast?_mem hl
    have hdot : (lastG.any fun c => decide (c = '.')) = false := by
      rw [← Bool.not_eq_true, List.any_eq_true]
      rintro ⟨c, hc, hcd⟩
      simp only [decide_eq_true_eq] at hcd
      exact h lastG hmem (hcd ▸ hc)
    rw [hdot]
    simp

theorem hexGroup_no_dot {g : List Char} (h : isHexGroup g = true) :
    '.' ∉ g ∧ ':' ∉ g ∧ g ≠ [] := by
  simp only [isHexGroup, Bool.and_eq_true, List.all_eq_true] at h
  refine ⟨?_, ?_, by simpa [List.isEmpty_iff] using h.1.1⟩
  · intro hm
    exact absurd rfl (hex_ne_sep '.' (h.2 '.' hm)).2
  · intro hm
    exact absurd rfl (hex_ne_sep ':' (h.2 ':' hm)).1

theorem ifEmpty_splitOnChar (gs : List (List Char))
    (hg : ∀ g ∈ gs, g ≠ [] ∧ ':' ∉ g) :
    (if (joinSep ':' gs).isEmpty then [] else splitOnChar ':' (joinSep ':' gs))
      = gs := by
  cases gs with
  | nil => simp [joinSep]
  | cons g gs2 =>
    have hne : joinSep ':' (g :: gs2) ≠ [] :=
      joinSep_ne_nil (hg g (List.mem_cons_self g gs2)).1
    rw [if_neg (by simpa [List.isEmpty_iff] using hne)]
    exact splitOnChar_joinSep ':' _ (by simp) (fun g2 hg2 => (hg g2 hg2).2)

theorem groupWords_append_v4 (pre : List (List Char)) (r : List Char)
    (a b c d : Nat) (hdot : '.' ∈ r) (hp : pton4 r = some [a, b, c, d])
    (hhex : pre.all isHexGroup = true) :
    groupWords (pre ++ [r]) =
      some (pre.map hexVal ++ [a * 256 + b, c * 256 + d]) := by
  unfold groupWords
  rw [List.getLast?_concat, List.dropLast_concat]
  have hany : (r.any fun c => decide (c = '.')) = true :=
    List.any_eq_true.mpr ⟨'.', hdot, by simp⟩
  simp only [hany, if_true]
  unfold hexWords
  rw [if_pos hhex, hp]

theorem pton6dc_eval (l r : List Char) (lg rg : List (List Char))
    (hl : (if l.isEmpty then [] else splitOnChar ':' l) = lg)
    (hr : (if r.isEmpty then [] else splitOnChar ':' r) = rg)
    (lw rw : List Nat)
    (hlw : hexWords lg = some lw)
    (hrw : groupWords rg = some rw)
    (hle : lw.length + rw.length ≤ 7) :
    pton6dc l r =
      some (lw ++ List.replicate (8 - lw.length - rw.length) 0 ++ rw) := by
  unfold pton6dc
  rw [hl, hr, hlw, hrw]
  show (if lw.length + rw.length ≤ 7 then
      some (lw ++ List.replicate (8 - lw.length - rw.length) 0 ++ rw)
    else none) = _
  rw [if_pos hle]

/-! ## Round trip for IPv6 -/

theorem pton6_ntop6 (ws : List Nat) (h8 : ws.length = 8)
    (hw : ∀ w ∈ ws, w < 65536) : pton6 (ntop6 ws) = some ws := by
  have hGd : ∀ g ∈ ws.map toHexChars, g ≠ [] ∧ ':' ∉ g := by
    intro g hg
    rcases List.mem_map.mp hg with ⟨w, hwmem, rfl⟩
    have hp := toHexChars_props w (hw w hwmem)
    exact ⟨hp.1, hp.2.1⟩
  cases hbest : bestZeroRun ws with
  | none =>
    have hnt : ntop6 ws = joinSep ':' (ws.map toHexChars) := by
      unfold ntop6
      rw [hbest]
    rw [hnt]
    have hmaplen : (ws.map toHexChars).length = 8 := by
      rw [List.length_map, h8]
    have hmapne : ws.map toHexChars ≠ [] := by
      intro hnil
      rw [hnil] at hmaplen
      simp at hmaplen
    unfold pton6
    rw [splitDC_joinSep_none _ hGd]
    show (match groupWords
        (splitOnChar ':' (joinSep ':' (ws.map toHexChars))) with
      | some ws2 => if ws2.length = 8 then some ws2 else none
      | none => none) = some ws
    rw [splitOnChar_joinSep ':' _ hmapne (fun g hg => (hGd g hg).2),
      groupWords_of_no_dot _ (fun g hg => by
        rcases List.mem_map.mp hg with ⟨w, hwmem, rfl⟩
        exact (toHexChars_props w (hw w hwmem)).2.2),
      hexWords_map_toHex ws hw]
    show (if ws.length = 8 then some ws else none) = some ws
    rw [if_pos h8]
  | some p =>
    obtain ⟨b, n⟩ := p
    have hnt : ntop6 ws =
        (if b = 0 ∧ n = 6 then
          ':' :: ':' :: ntop4 [ws.getD 6 0 / 256, ws.getD 6 0 % 256,
            ws.getD 7 0 / 256, ws.getD 7 0 % 256]
        else if b = 0 ∧ n = 5 ∧ ws.getD 5 0 = 65535 then
          (':' :: ':' :: toHexChars 65535) ++
            ':' :: ntop4 [ws.getD 6 0 / 256, ws.getD 6 0 % 256,
              ws.getD 7 0 / 256, ws.getD 7 0 % 256]
        else
          joinSep ':' ((ws.take b).map toHexChars) ++
            ':' :: ':' :: joinSep ':' ((ws.drop (b + n)).map toHexChars)) := by
      unfold ntop6
      rw [hbest]
    rw [hnt]
    obtain ⟨hn2, hbn, hzeros⟩ := bestZeroRun_sound h8 hbest
    have hdd : (ws.drop b).drop n = ws.drop (b + n) := by
      rw [List.drop_drop, Nat.add_comm]
    have hsplitws : ws.take b ++ (List.replicate n 0 ++ ws.drop (b + n)) =
        ws := by
      rw [← hzeros, ← hdd, List.take_append_drop, List.take_append_drop]
    split_ifs with h6 h5
    · -- IPv4-compatible special case: run covers words 0..5
      obtain ⟨rfl, rfl⟩ := h6
      have hws : List.replicate 6 0 ++ ws.drop 6 = ws := by
        simpa using hsplitws
      have hlen2 : (ws.drop 6).length = 2 := by
        rw [List.length_drop, h8]
      obtain ⟨x, y, hxy⟩ := List.length_eq_two.mp hlen2
      have hxmem : x < 65536 := hw x (List.drop_subset 6 ws (by simp [hxy]))
      have hymem : y < 65536 := hw y (List.drop_subset 6 ws (by simp [hxy]))
      have hg6 : ws.getD 6 0 = x := by
        conv_lhs => rw [← hws, hxy]
        rfl
      have hg7 : ws.getD 7 0 = y := by
        conv_lhs => rw [← hws, hxy]
        rfl
      rw [hg6, hg7]
      have hb4 : ∀ v ∈ [x / 256, x % 256, y / 256, y % 256], v < 256 := by
        intro v hv
        simp only [List.mem_cons, List.not_mem_nil, or_false] at hv
        rcases hv with rfl | rfl | rfl | rfl <;> omega
      have hnp := ntop4_props [x / 256, x % 256, y / 256, y % 256] rfl hb4
      have hr : (if (ntop4 [x / 256, x % 256, y / 256, y % 256]).isEmpty
          then [] else splitOnChar ':'
            (ntop4 [x / 256, x % 256, y / 256, y % 256])) =
          [ntop4 [x / 256, x % 256, y / 256, y % 256]] := by
        rw [if_neg (by simpa [List.isEmpty_iff] using hnp.1)]
        exact splitOnChar_noSep ':' _ hnp.2.1
      have hrw : groupWords [ntop4 [x / 256, x % 256, y / 256, y % 256]] =
          some [(x / 256) * 256 + x % 256, (y / 256) * 256 + y % 256] := by
        have := groupWords_append_v4 [] _ (x / 256) (x % 256) (y / 256)
          (y % 256) hnp.2.2 (pton4_ntop4 _ rfl hb4) rfl
        simpa using this
      unfold pton6
      rw [splitDC_dc]
      show pton6dc [] (ntop4 [x / 256, x % 256, y / 256, y % 256]) = some ws
      rw [pton6dc_eval [] _ [] [ntop4 [x / 256, x % 256, y / 256, y % 256]]
        rfl hr [] _ rfl hrw (by simp)]
      have hvx : (x / 256) * 256 + x % 256 = x := by omega
      have hvy : (y / 256) * 256 + y % 256 = y := by omega
      rw [hvx, hvy]
      show some (List.replicate 6 0 ++ [x, y]) = some ws
      rw [← hxy, hws]
    · -- IPv4-mapped special case: run covers words 0..4 and word 5 is ffff
      obtain ⟨rfl, rfl, hff⟩ := h5
      have hws : List.replicate 5 0 ++ ws.drop 5 = ws := by
        simpa using hsplitws
      have hlen3 : (ws.drop 5).length = 3 := by
        rw [List.length_drop, h8]
      obtain ⟨v, x, y, hxy⟩ := List.length_eq_three.mp hlen3
      have hxmem : x < 65536 := hw x (List.drop_subset 5 ws (by simp [hxy]))
      have hymem : y < 65536 := hw y (List.drop_subset 5 ws (by simp [hxy]))
      have hg5 : ws.getD 5 0 = v := by
        conv_lhs => rw [← hws, hxy]
        rfl
      have hg6 : ws.getD 6 0 = x := by
        conv_lhs => rw [← hws, hxy]
        rfl
      have hg7 : ws.getD 7 0 = y := by
        conv_lhs => rw [← hws, hxy]
        rfl
      have hv : v = 65535 := by rw [← hg5, hff]
      rw [hg6, hg7]
      have hb4 : ∀ w ∈ [x / 256, x % 256, y / 256, y % 256], w < 256 := by
        intro w hw2
        simp only [List.mem_cons, List.not_mem_nil, or_false] at hw2
        rcases hw2 with rfl | rfl | rfl | rfl <;> omega
      have hnp := ntop4_props [x / 256, x % 256, y / 256, y % 256] rfl hb4
      have hhex := toHexChars_spec 65535 (by norm_num)
      have hhexprops := toHexChars_props 65535 (by norm_num)
      have hr : (if (toHexChars 65535 ++ ':' ::
            ntop4 [x / 256, x % 256, y / 256, y % 256]).isEmpty
          then [] else splitOnChar ':' (toHexChars 65535 ++ ':' ::
            ntop4 [x / 256, x % 256, y / 256, y % 256])) =
          [toHexChars 65535,
            ntop4 [x / 256, x % 256, y / 256, y % 256]] := by
        rw [if_neg (by
          simp only [List.isEmpty_iff, List.append_eq_nil]
          rintro ⟨h1, -⟩
          exact hhexprops.1 h1)]
        rw [splitOnChar_append_noSep ':' _ _ hhexprops.2.1,
          splitOnChar_noSep ':' _ hnp.2.1]
      have hrw : groupWords [toHexChars 65535,
          ntop4 [x / 256, x % 256, y / 256, y % 256]] =
          some [65535, (x / 256) * 256 + x % 256,
            (y / 256) * 256 + y % 256] := by
        have := groupWords_append_v4 [toHexChars 65535] _ (x / 256) (x % 256)
          (y / 256) (y % 256) hnp.2.2 (pton4_ntop4 _ rfl hb4)
          (by simp [hhex.1])
        simpa [hhex.2] using this
      unfold pton6
      show (match splitDC ((':' :: ':' :: toHexChars 65535) ++ ':' ::
          ntop4 [x / 256, x % 256, y / 256, y % 256]) with
        | none =>
          match groupWords (splitOnChar ':' ((':' :: ':' :: toHexChars 65535)
              ++ ':' :: ntop4 [x / 256, x % 256, y / 256, y % 256])) with
          | some ws2 => if ws2.length = 8 then some ws2 else none
          | none => none
        | some (l, r) => pton6dc l r) = some ws
      have hdc : splitDC ((':' :: ':' :: toHexChars 65535) ++ ':' ::
          ntop4 [x / 256, x % 256, y / 256, y % 256]) =
          some ([], toHexChars 65535 ++ ':' ::
            ntop4 [x / 256, x % 256, y / 256, y % 256]) := by
        show splitDC (':' :: ':' :: (toHexChars 65535 ++ ':' ::
          ntop4 [x / 256, x % 256, y / 256, y % 256])) = _
        rw [splitDC_dc]
      rw [hdc]
      show pton6dc [] (toHexChars 65535 ++ ':' ::
        ntop4 [x / 256, x % 256, y / 256, y % 256]) = some ws
      rw [pton6dc_eval [] _ [] _ rfl hr [] _ rfl hrw (by simp)]
      have hvx : (x / 256) * 256 + x % 256 = x := by omega
      have hvy : (y / 256) * 256 + y % 256 = y := by omega
      rw [hvx, hvy]
      show some (List.replicate 5 0 ++ [65535, x, y]) = some ws
      rw [← hv, ← hxy, hws]
    · -- general compression: pre-run and post-run hex groups around "::"
      have hGdpre : ∀ g ∈ (ws.take b).map toHexChars, g ≠ [] ∧ ':' ∉ g := by
        intro g hg
        rcases List.mem_map.mp hg with ⟨w, hwmem, rfl⟩
        have hp := toHexChars_props w (hw w (List.take_subset b ws hwmem))
        exact ⟨hp.1, hp.2.1⟩
      have hGdpost : ∀ g ∈ (ws.drop (b + n)).map toHexChars,
          g ≠ [] ∧ ':' ∉ g := by
        intro g hg
        rcases List.mem_map.mp hg with ⟨w, hwmem, rfl⟩
        have hp := toHexChars_props w (hw w (List.drop_subset (b + n) ws hwmem))
        exact ⟨hp.1, hp.2.1⟩
      have hlw : hexWords ((ws.take b).map toHexChars) = some (ws.take b) :=
        hexWords_map_toHex _ (fun w hwmem => hw w (List.take_subset b ws hwmem))
      have hrw : groupWords ((ws.drop (b + n)).map toHexChars) =
          some (ws.drop (b + n)) := by
        rw [groupWords_of_no_dot _ (fun g hg => by
          rcases List.mem_map.mp hg with ⟨w, hwmem, rfl⟩
          exact (toHexChars_props w
            (hw w (List.drop_subset (b + n) ws hwmem))).2.2)]
        exact hexWords_map_toHex _
          (fun w hwmem => hw w (List.drop_subset (b + n) ws hwmem))
      have hlenpre : (ws.take b).length = b := by
        rw [List.length_take, h8]
        omega
      have hlenpost : (ws.drop (b + n)).length = 8 - (b + n) := by
        rw [List.length_drop, h8]
      unfold pton6
      rw [splitDC_joinSep_dc _ _ hGdpre]
      show pton6dc (joinSep ':' ((ws.take b).map toHexChars))
        (joinSep ':' ((ws.drop (b + n)).map toHexChars)) = some ws
      rw [pton6dc_eval _ _ _ _ (ifEmpty_splitOnChar _ hGdpre)
        (ifEmpty_splitOnChar _ hGdpost) _ _ hlw hrw
        (by rw [hlenpre, hlenpost]; omega)]
      have hcount : 8 - (ws.take b).length - (ws.drop (b + n)).length = n := by
        rw [hlenpre, hlenpost]
        omega
      rw [hcount, List.append_assoc, hsplitws]

/-! ## Extraction lemmas for pton6 and idempotency of parseIpCore -/

theorem hexWords_bounds {gs : List (List Char)} {ws : List Nat}
    (h : hexWords gs = some ws) : ∀ w ∈ ws, w < 65536 := by
  obtain ⟨rfl, hall⟩ := hexWords_some_spec h
  intro w hw
  rcases List.mem_map.mp hw with ⟨g, hg, rfl⟩
  exact hexVal_lt_of_isHexGroup (hall g hg)

theorem groupWords_bounds {gs : List (List Char)} {ws : List Nat}
    (h : groupWords gs = some ws) : ∀ w ∈ ws, w < 65536 := by
  unfold groupWords at h
  split at h
  · cases h
    simp
  · split at h
    · split at h
      · rename_i ws2 a b c d hws2 hp4
        cases h
        intro w hw
        rcases List.mem_append.mp hw with hw1 | hw2
        · exact hexWords_bounds hws2 w hw1
        · have hb := (pton4_some_spec hp4).2.1
          have ha2 := hb a (by simp)
          have hb2 := hb b (by simp)
          have hc2 := hb c (by simp)
          have hd2 := hb d (by simp)
          simp only [List.mem_cons, List.not_mem_nil, or_false] at hw2
          rcases hw2 with rfl | rfl <;> omega
      · cases h
    · exact hexWords_bounds h

theorem pton6_some_spec {cs : List Char} {ws : List Nat}
    (h : pton6 cs = some ws) : ws.length = 8 ∧ ∀ w ∈ ws, w < 65536 := by
  unfold pton6 at h
  split at h
  · split at h
    · rename_i ws2 hgw
      split at h
      · rename_i hlen
        cases h
        exact ⟨hlen, groupWords_bounds hgw⟩
      · cases h
    · cases h
  · rename_i l r hdc
    unfold pton6dc at h
    split at h
    · rename_i lw rw2 hlw hrw
      split at h
      · rename_i hle
        cases h
        constructor
        · simp only [List.length_append, List.length_replicate]
          omega
        · intro w hw
          rcases List.mem_append.mp hw with hw1 | hw2
          · rcases List.mem_append.mp hw1 with hw3 | hw4
            · exact hexWords_bounds hlw w hw3
            · have := List.eq_of_mem_replicate hw4
              omega
          · exact groupWords_bounds hrw w hw2
      · cases h
    · cases h

theorem colon_mem_ntop6 (ws : List Nat) (h8 : ws.length = 8) :
    ':' ∈ ntop6 ws := by
  cases hbest : bestZeroRun ws with
  | none =>
    have hnt : ntop6 ws = joinSep ':' (ws.map toHexChars) := by
      unfold ntop6
      rw [hbest]
    rw [hnt]
    have hmaplen : (ws.map toHexChars).length = 8 := by
      rw [List.length_map, h8]
    match hm : ws.map toHexChars, hmaplen with
    | g1 :: g2 :: rest, _ =>
      rw [joinSep_cons₂]
      exact List.mem_append_right _ (List.mem_cons_self ':' _)
  | some p =>
    obtain ⟨b, n⟩ := p
    have hnt : ntop6 ws =
        (if b = 0 ∧ n = 6 then
          ':' :: ':' :: ntop4 [ws.getD 6 0 / 256, ws.getD 6 0 % 256,
            ws.getD 7 0 / 256, ws.getD 7 0 % 256]
        else if b = 0 ∧ n = 5 ∧ ws.getD 5 0 = 65535 then
          (':' :: ':' :: toHexChars 65535) ++
            ':' :: ntop4 [ws.getD 6 0 / 256, ws.getD 6 0 % 256,
              ws.getD 7 0 / 256, ws.getD 7 0 % 256]
        else
          joinSep ':' ((ws.take b).map toHexChars) ++
            ':' :: ':' :: joinSep ':' ((ws.drop (b + n)).map toHexChars)) := by
      unfold ntop6
      rw [hbest]
    rw [hnt]
    split_ifs with h6 h5
    · exact List.mem_cons_self ':' _
    · exact List.mem_append_left _ (List.mem_cons_self ':' _)
    · exact List.mem_append_right _ (List.mem_cons_self ':' _)

/-- Binary denotation of an IP literal, tried in the order of
`Arguments::parseIpAddress` (IPv4 first, then IPv6). -/
def ipBin (cs : List Char) : Option (IpVer × List Nat) :=
  match pton4 cs with
  | some bs => some (.v4, bs)
  | none =>
    match pton6 cs with
    | some ws => some (.v6, ws)
    | none => none

/-- Re-serialization (`inet_ntop`) of a parsed binary address. -/
def serIp : IpVer → List Nat → List Char
  | .v4, bs => ntop4 bs
  | .v6, ws => ntop6 ws

theorem parseIpCore_eq_ipBin (cs : List Char) :
    parseIpCore cs = (ipBin cs).map (fun p => (p.1, serIp p.1 p.2)) := by
  unfold parseIpCore ipBin
  cases pton4 cs with
  | some bs => rfl
  | none =>
    cases pton6 cs with
    | some ws => rfl
    | none => rfl

theorem parseIpCore_idem {cs c : List Char} {v : IpVer}
    (h : parseIpCore cs = some (v, c)) : parseIpCore c = some (v, c) := by
  unfold parseIpCore at h ⊢
  cases hp4 : pton4 cs with
  | some bs =>
    rw [hp4] at h
    have hvc : v = .v4 ∧ c = ntop4 bs := by
      cases h
      exact ⟨rfl, rfl⟩
    obtain ⟨rfl, rfl⟩ := hvc
    have hspec := pton4_some_spec hp4
    rw [pton4_ntop4 bs hspec.1 hspec.2.1]
  | none =>
    rw [hp4] at h
    cases hp6 : pton6 cs with
    | some ws =>
      rw [hp6] at h
      have hvc : v = .v6 ∧ c = ntop6 ws := by
        cases h
        exact ⟨rfl, rfl⟩
      obtain ⟨rfl, rfl⟩ := hvc
      have hspec := pton6_some_spec hp6
      rw [pton4_none_of_colon (colon_mem_ntop6 ws hspec.1),
        pton6_ntop6 ws hspec.1 hspec.2]
    | none =>
      rw [hp6] at h
      cases h

/-! ## Cursor helper lemmas -/

theorem peek_lt {a : Arguments} {t : String} (h : a.peek = some t) :
    a.current < a.args.length := by
  unfold Arguments.peek at h
  by_contra hge
  rw [List.get?_eq_none.mpr (Nat.le_of_not_lt hge)] at h
  cases h

theorem asText_of_peek {a : Arguments} {t : String} (h : a.peek = some t) :
    a.asText = .ok (t, { a with current := a.current + 1 }) := by
  have hlt := peek_lt h
  unfold Arguments.asText
  rw [h]
  unfold Arguments.inc
  rw [if_neg (Nat.ne_of_lt hlt)]

theorem asText_of_exhausted {a : Arguments} (h : a.peek = none) :
    a.asText = .error (.invalidArg "Not enough arguments") := by
  unfold Arguments.asText
  rw [h]
  unfold Arguments.inc
  have hge : a.args.length ≤ a.current := by
    unfold Arguments.peek at h
    exact List.get?_eq_none.mp h
  by_cases heq : a.current = a.args.length
  · rw [if_pos heq]
  · rw [if_neg heq]

/-! ## Claim C3 -/

/-- C3: `parseIpAddress` (and hence `asIpAddress`) is canonicalizing and
idempotent: two accepted textual forms denoting the same binary address
yield the same canonical output; re-parsing a canonical output returns the
same string and version; a canonical dotted-decimal IPv4 input such as
`"127.0.0.1"` is returned byte-identical with version v4. -/
theorem c3_parseIpAddress_canonical :
    (∀ s1 s2 : String, ∀ bin : IpVer × List Nat,
      ipBin s1.data = some bin → ipBin s2.data = some bin →
      parseIpAddress s1 = parseIpAddress s2) ∧
    (∀ (s : String) (v : IpVer) (c : String),
      parseIpAddress s = .ok (v, c) → parseIpAddress c = .ok (v, c)) ∧
    (∀ (a : Arguments) (v : IpVer) (c : String) (a2 : Arguments),
      a.asIpAddress = .ok ((v, c), a2) → parseIpAddress c = .ok (v, c)) ∧
    parseIpAddress "127.0.0.1" = .ok (.v4, "127.0.0.1") := by
  have hidem : ∀ (s : String) (v : IpVer) (c : String),
      parseIpAddress s = .ok (v, c) → parseIpAddress c = .ok (v, c) := by
    intro s v c h
    unfold parseIpAddress at h ⊢
    cases hc : parseIpCore s.data with
    | none =>
      rw [hc] at h
      cases h
    | some p =>
      obtain ⟨v2, c2⟩ := p
      rw [hc] at h
      have hvc : v = v2 ∧ c = String.mk c2 := by
        cases h
        exact ⟨rfl, rfl⟩
      obtain ⟨rfl, rfl⟩ := hvc
      have hdata : (String.mk c2).data = c2 := rfl
      rw [hdata, parseIpCore_idem hc]
  refine ⟨?_, hidem, ?_, ?_⟩
  · intro s1 s2 bin h1 h2
    unfold parseIpAddress
    rw [parseIpCore_eq_ipBin s1.data, parseIpCore_eq_ipBin s2.data, h1, h2]
    simp only [Option.map_some']
  · intro a v c a2 h
    unfold Arguments.asIpAddress at h
    cases hat : a.asText with
    | error e =>
      rw [hat] at h
      cases h
    | ok p =>
      obtain ⟨t, a3⟩ := p
      rw [hat] at h
      have h2 : (match parseIpCore t.data with
          | some (v2, c2) => Except.ok ((v2, String.mk c2), a3)
          | none => Except.error (Err.invalidArg ("Invalid IP address: " ++ t
              ++ ", expected IPv4 or IPv6 address"))) =
          Except.ok ((v, c), a2) := h
      clear h
      cases hc : parseIpCore t.data with
      | none =>
        rw [hc] at h2
        cases h2
      | some q =>
        obtain ⟨v2, c2⟩ := q
        rw [hc] at h2
        have hvc : v = v2 ∧ c = String.mk c2 := by
          cases h2
          exact ⟨rfl, rfl⟩
        obtain ⟨rfl, rfl⟩ := hvc
        unfold parseIpAddress
        have hdata : (String.mk c2).data = c2 := rfl
        rw [hdata, parseIpCore_idem hc]
  · rfl

theorem c3_witness :
    parseIpAddress "2001:0db8:85a3:0000:0000:8a2e:0370:7334" =
      .ok (.v6, "2001:db8:85a3::8a2e:370:7334") ∧
    parseIpAddress "2001:db8:85a3::8a2e:370:7334" =
      .ok (.v6, "2001:db8:85a3::8a2e:370:7334") := by
  have h1 : parseIpAddress "2001:0db8:85a3:0000:0000:8a2e:0370:7334" =
      .ok (.v6, "2001:db8:85a3::8a2e:370:7334") := by rfl
  exact ⟨h1, c3_parseIpAddress_canonical.2.1 _ _ _ h1⟩

/-! ## Characterization of splitLast -/

theorem splitLast_none_iff (sep : Char) (cs : List Char) :
    splitLast sep cs = none ↔ sep ∉ cs := by
  induction cs with
  | nil => simp [splitLast]
  | cons c cs ih =>
    unfold splitLast
    cases hsl : splitLast sep cs with
    | some p =>
      have hmem : sep ∈ cs := by
        by_contra hnm
        rw [ih.mpr hnm] at hsl
        cases hsl
      simp [hmem]
    | none =>
      by_cases hcsep : c = sep
      · subst hcsep
        simp
      · rw [if_neg hcsep]
        have hnm := ih.mp hsl
        constructor
        · intro _ hmem
          rcases List.mem_cons.mp hmem with h1 | h1
          · exact hcsep h1.symm
          · exact hnm h1
        · intro _
          rfl

theorem splitLast_some_iff (sep : Char) (cs l r : List Char) :
    splitLast sep cs = some (l, r) ↔ cs = l ++ sep :: r ∧ sep ∉ r := by
  induction cs generalizing l r with
  | nil =>
    simp only [splitLast]
    constructor
    · intro h
      cases h
    · rintro ⟨h, -⟩
      exact absurd h.symm (List.append_ne_nil_of_right_ne_nil l (by simp))
  | cons c cs ih =>
    unfold splitLast
    cases hsl : splitLast sep cs with
    | some p =>
      obtain ⟨l2, r2⟩ := p
      have hcs := (ih l2 r2).mp hsl
      constructor
      · intro h
        have hlr : l = c :: l2 ∧ r = r2 := by
          cases h
          exact ⟨rfl, rfl⟩
        obtain ⟨rfl, rfl⟩ := hlr
        exact ⟨by rw [hcs.1]; rfl, hcs.2⟩
      · rintro ⟨heq, hnr⟩
        cases l with
        | nil =>
          simp only [List.nil_append, List.cons.injEq] at heq
          refine absurd ?_ hnr
          rw [← heq.2, hcs.1]
          exact List.mem_append_right l2 (List.mem_cons_self sep r2)
        | cons c2 l3 =>
          simp only [List.cons_append, List.cons.injEq] at heq
          obtain ⟨rfl, heq2⟩ := heq
          have := (ih l3 r).mpr ⟨heq2, hnr⟩
          rw [this] at hsl
          cases hsl
          rfl
    | none =>
      have hnm := (splitLast_none_iff sep cs).mp hsl
      by_cases hcsep : c = sep
      · subst hcsep
        rw [if_pos rfl]
        constructor
        · intro h
          have hlr : l = [] ∧ r = cs := by
            cases h
            exact ⟨rfl, rfl⟩
          obtain ⟨rfl, rfl⟩ := hlr
          exact ⟨rfl, hnm⟩
        · rintro ⟨heq, hnr⟩
          cases l with
          | nil =>
            simp only [List.nil_append, List.cons.injEq] at heq
            rw [heq.2]
          | cons c2 l3 =>
            simp only [List.cons_append, List.cons.injEq] at heq
            refine absurd ?_ hnm
            rw [heq.2]
            exact List.mem_append_right l3 (List.mem_cons_self c r)
      · rw [if_neg hcsep]
        constructor
        · intro h
          cases h
        · rintro ⟨heq, hnr⟩
          cases l with
          | nil =>
            simp only [List.nil_append, List.cons.injEq] at heq
            exact absurd heq.1 hcsep
          | cons c2 l3 =>
            simp only [List.cons_append, List.cons.injEq] at heq
            refine absurd ?_ hnm
            rw [heq.2]
            exact List.mem_append_right l3 (List.mem_cons_self sep r)

/-! ## Claim C1 -/

/-- The range check of `asIpAddrMask` applied to the result of
`parseIpAddress` on the address part, with `a2` the already-advanced cursor,
`t` the original token, and `maskText` the suffix after the last slash. -/
def ipMaskCheck (a2 : Arguments) (t : String) (maskText : List Char) :
    Option (IpVer × List Char) →
      Except Err ((IpVer × String × Nat) × Arguments)
  | some (ver, ip) =>
    if strtoul0 maskText ≠ 0 ∧
        ((ver = .v4 ∧ strtoul0 maskText ≤ 32) ∨
         (ver = .v6 ∧ strtoul0 maskText ≤ 64)) then
      .ok ((ver, String.mk ip, strtoul0 maskText), a2)
    else
      .error (.invalidArg ("Invalid argument: " ++ t ++
        ", expected IP[/PREFIX] (e.g. 10.0.0.1/8 or 192.168.1.1)"))
  | none =>
    .error (.invalidArg ("Invalid argument: " ++ t ++
      ", expected IP[/PREFIX] (e.g. 10.0.0.1/8 or 192.168.1.1)"))

/-- The slash-free fallback of `asIpAddrMask`: default length per version. -/
def ipMaskDefault (a2 : Arguments) (t : String) :
    Option (IpVer × List Char) →
      Except Err ((IpVer × String × Nat) × Arguments)
  | some (ver, ip) =>
    .ok ((ver, String.mk ip, if ver = .v4 then 24 else 64), a2)
  | none =>
    .error (.invalidArg ("Invalid argument: " ++ t ++
      ", expected IP[/PREFIX] (e.g. 10.0.0.1/8 or 192.168.1.1)"))

/-- Continuation of `asIpAddrMask` after the `strrchr('/')` split. -/
def ipMaskSplit (a2 : Arguments) (t : String) :
    Option (List Char × List Char) →
      Except Err ((IpVer × String × Nat) × Arguments)
  | some (addr, maskText) =>
    if isNumberL maskText then ipMaskCheck a2 t maskText (parseIpCore addr)
    else
      .error (.invalidArg ("Invalid argument: " ++ t ++
        ", expected IP[/PREFIX] (e.g. 10.0.0.1/8 or 192.168.1.1)"))
  | none => ipMaskDefault a2 t (parseIpCore t.data)

theorem asIpAddrMask_eq_split (a : Arguments) (t : String)
    (hpeek : a.peek = some t) :
    a.asIpAddrMask = ipMaskSplit { a with current := a.current + 1 } t
      (splitLast '/' t.data) := by
  unfold Arguments.asIpAddrMask
  rw [asText_of_peek hpeek]
  unfold ipMaskSplit ipMaskCheck ipMaskDefault
  rfl

/-- C1 (amended): for the token `t` consumed by `asIpAddrMask`: if `t`
contains a `'/'`, it is split at the last `'/'`, and the call succeeds iff
the suffix satisfies `isNumber`, the part before the slash parses as an IP
literal, and the suffix value under `strtoul(·, nullptr, 0)` base
auto-detection (octal when the suffix starts with `'0'`) is at least 1 and
at most 32 for v4 / 64 for v6, returning (version, canonical address, value);
if `t` contains no `'/'`, the call succeeds iff `t` parses as an IP literal,
with default length 24 (v4) / 64 (v6); every other token raises an
invalid-argument error naming the token. -/
theorem c1_asIpAddrMask (a : Arguments) (t : String)
    (hpeek : a.peek = some t) :
    (∀ (v : IpVer) (ip : String) (len : Nat) (a2 : Arguments),
      a.asIpAddrMask = .ok ((v, ip, len), a2) ↔
        (a2 = { a with current := a.current + 1 } ∧
          (('/' ∉ t.data ∧ parseIpCore t.data = some (v, ip.data) ∧
             len = (if v = .v4 then 24 else 64)) ∨
           (∃ addr sfx, t.data = addr ++ '/' :: sfx ∧ '/' ∉ sfx ∧
             isNumberL sfx = true ∧ parseIpCore addr = some (v, ip.data) ∧
             len = strtoul0 sfx ∧ 1 ≤ len ∧
             ((v = .v4 ∧ len ≤ 32) ∨ (v = .v6 ∧ len ≤ 64)))))) ∧
    (∀ e, a.asIpAddrMask = .error e →
      e = .invalidArg ("Invalid argument: " ++ t ++
        ", expected IP[/PREFIX] (e.g. 10.0.0.1/8 or 192.168.1.1)")) := by
  rw [asIpAddrMask_eq_split a t hpeek]
  cases hsp : splitLast '/' t.data with
  | some p =>
    obtain ⟨addr, sfx⟩ := p
    simp only [ipMaskSplit]
    have hdec := (splitLast_some_iff '/' t.data addr sfx).mp hsp
    have hslash : '/' ∈ t.data := by
      rw [hdec.1]
      exact List.mem_append_right addr (List.mem_cons_self '/' sfx)
    have huniq : ∀ addr2 sfx2, t.data = addr2 ++ '/' :: sfx2 → '/' ∉ sfx2 →
        addr2 = addr ∧ sfx2 = sfx := by
      intro addr2 sfx2 he hn
      have h2 := (splitLast_some_iff '/' t.data addr2 sfx2).mpr ⟨he, hn⟩
      rw [hsp] at h2
      simp only [Option.some.injEq, Prod.mk.injEq] at h2
      exact ⟨h2.1.symm, h2.2.symm⟩
    by_cases hnum : isNumberL sfx = true
    · rw [if_pos hnum]
      cases hpc : parseIpCore addr with
      | some q =>
        obtain ⟨ver, ipc⟩ := q
        simp only [ipMaskCheck]
        by_cases hcond : strtoul0 sfx ≠ 0 ∧
            ((ver = .v4 ∧ strtoul0 sfx ≤ 32) ∨
             (ver = .v6 ∧ strtoul0 sfx ≤ 64))
        · rw [if_pos hcond]
          constructor
          · intro v ip len a2
            constructor
            · intro h
              simp only [Except.ok.injEq, Prod.mk.injEq] at h
              obtain ⟨⟨hv, hip, hlen⟩, ha2⟩ := h
              subst hv hlen ha2
              refine ⟨rfl, Or.inr ⟨addr, sfx, hdec.1, hdec.2, hnum, ?_, rfl,
                by omega, ?_⟩⟩
              · rw [← hip]
                exact hpc
              · exact hcond.2
            · rintro ⟨ha2, hL | hR⟩
              · exact absurd hslash hL.1
              · obtain ⟨addr2, sfx2, he2, hn2, hnum2, hpc2, hlen2, h1le,
                  hbound⟩ := hR
                obtain ⟨rfl, rfl⟩ := huniq addr2 sfx2 he2 hn2
                rw [hpc] at hpc2
                simp only [Option.some.injEq, Prod.mk.injEq] at hpc2
                subst ha2 hlen2
                obtain ⟨rfl, rfl⟩ := hpc2
                rfl
          · intro e h
            cases h
        · rw [if_neg hcond]
          constructor
          · intro v ip len a2
            constructor
            · intro h
              cases h
            · rintro ⟨ha2, hL | hR⟩
              · exact absurd hslash hL.1
              · obtain ⟨addr2, sfx2, he2, hn2, hnum2, hpc2, hlen2, h1le,
                  hbound⟩ := hR
                obtain ⟨rfl, rfl⟩ := huniq addr2 sfx2 he2 hn2
                rw [hpc] at hpc2
                simp only [Option.some.injEq, Prod.mk.injEq] at hpc2
                exfalso
                apply hcond
                subst hlen2
                rw [hpc2.1]
                exact ⟨by omega, hbound⟩
          · intro e h
            simp only [Except.error.injEq] at h
            exact h.symm
      | none =>
        simp only [ipMaskCheck]
        constructor
        · intro v ip len a2
          constructor
          · intro h
            cases h
          · rintro ⟨ha2, hL | hR⟩
            · exact absurd hslash hL.1
            · obtain ⟨addr2, sfx2, he2, hn2, hnum2, hpc2, hlen2, h1le,
                hbound⟩ := hR
              obtain ⟨rfl, rfl⟩ := huniq addr2 sfx2 he2 hn2
              rw [hpc] at hpc2
              cases hpc2
        · intro e h
          simp only [Except.error.injEq] at h
          exact h.symm
    · rw [if_neg hnum]
      constructor
      · intro v ip len a2
        constructor
        · intro h
          cases h
        · rintro ⟨ha2, hL | hR⟩
          · exact absurd hslash hL.1
          · obtain ⟨addr2, sfx2, he2, hn2, hnum2, hpc2, hlen2, h1le,
              hbound⟩ := hR
            obtain ⟨rfl, rfl⟩ := huniq addr2 sfx2 he2 hn2
            exact absurd hnum2 hnum
      · intro e h
        simp only [Except.error.injEq] at h
        exact h.symm
  | none =>
    simp only [ipMaskSplit]
    have hnosl := (splitLast_none_iff '/' t.data).mp hsp
    cases hpc : parseIpCore t.data with
    | some q =>
      obtain ⟨ver, ipc⟩ := q
      simp only [ipMaskDefault]
      constructor
      · intro v ip len a2
        constructor
        · intro h
          simp only [Except.ok.injEq, Prod.mk.injEq] at h
          obtain ⟨⟨hv, hip, hlen⟩, ha2⟩ := h
          subst hv ha2
          refine ⟨rfl, Or.inl ⟨hnosl, ?_, hlen.symm⟩⟩
          rw [← hip]
        · rintro ⟨ha2, hL | hR⟩
          · obtain ⟨hns, hpc2, hlen⟩ := hL
            simp only [Option.some.injEq, Prod.mk.injEq] at hpc2
            subst ha2 hlen
            obtain ⟨rfl, rfl⟩ := hpc2
            rfl
          · obtain ⟨addr2, sfx2, he2, -, -, -, -, -, -⟩ := hR
            refine absurd ?_ hnosl
            rw [he2]
            exact List.mem_append_right addr2 (List.mem_cons_self '/' sfx2)
      · intro e h
        cases h
    | none =>
      simp only [ipMaskDefault]
      constructor
      · intro v ip len a2
        constructor
        · intro h
          cases h
        · rintro ⟨ha2, hL | hR⟩
          · obtain ⟨-, hpc2, -⟩ := hL
            cases hpc2
          · obtain ⟨addr2, sfx2, he2, -, -, -, -, -, -⟩ := hR
            refine absurd ?_ hnosl
            rw [he2]
            exact List.mem_append_right addr2 (List.mem_cons_self '/' sfx2)
      · intro e h
        simp only [Except.error.injEq] at h
        exact h.symm

theorem c1_counterexample :
    Arguments.asIpAddrMask ⟨["1.2.3.4/040"], 0⟩ =
      .ok ((.v4, "1.2.3.4", 32), ⟨["1.2.3.4/040"], 1⟩) ∧
    decVal "040".data = 40 ∧ ¬((40 : Nat) ≤ 32) := by
  refine ⟨by rfl, by rfl, by omega⟩

theorem c1_witness :
    Arguments.asIpAddrMask ⟨["127.0.0.1/8"], 0⟩ =
      .ok ((.v4, "127.0.0.1", 8), ⟨["127.0.0.1/8"], 1⟩) := by
  have h := c1_asIpAddrMask ⟨["127.0.0.1/8"], 0⟩ "127.0.0.1/8" rfl
  exact (h.1 .v4 "127.0.0.1" 8 ⟨["127.0.0.1/8"], 1⟩).mpr
    ⟨rfl, Or.inr ⟨"127.0.0.1".data, "8".data, by decide, by decide, by decide,
      by rfl, by rfl, by decide, Or.inl ⟨rfl, by decide⟩⟩⟩

/-! ## Claim C9 -/

theorem takeWhile_all {p : Char → Bool} :
    ∀ {cs : List Char}, (∀ c ∈ cs, p c = true) → cs.takeWhile p = cs := by
  intro cs
  induction cs with
  | nil => intro _; rfl
  | cons c cs ih =>
    intro h
    rw [List.takeWhile_cons, if_pos (h c (List.mem_cons_self c cs)),
      ih (fun x hx => h x (List.mem_cons_of_mem c hx))]

theorem strtoul0_not_zero (cs : List Char) (h : cs.head? ≠ some '0') :
    strtoul0 cs = decVal (cs.takeWhile Char.isDigit) := by
  unfold strtoul0
  split
  · rename_i rest
    exact absurd (rfl : ('0' :: rest).head? = some '0') h
  · rfl

/-- C9 (amended): `isNumber` accepts exactly the non-empty strings of at
most 10 ASCII digits; it rejects `""`, `"-100"`, `"12abc"` and an
11-digit string, and accepts `"0"` and `"100"`; `asNumber` succeeds exactly
on `isNumber` tokens, returning the `strtoul(arg, nullptr, 0)` value of the
token — which equals the decimal value whenever the token does not start
with `'0'` (and for `"0"` itself), but is an octal reading for tokens with
a leading zero. -/
theorem c9_isNumber_asNumber (s : String) (a : Arguments)
    (hpeek : a.peek = some s) :
    (isNumber s = true ↔
      (1 ≤ s.data.length ∧ s.data.length ≤ 10 ∧
        ∀ c ∈ s.data, '0' ≤ c ∧ c ≤ '9')) ∧
    (isNumber "" = false ∧ isNumber "-100" = false ∧
      isNumber "12abc" = false ∧ isNumber "12345678901" = false ∧
      isNumber "0" = true ∧ isNumber "100" = true) ∧
    (∀ n a2, a.asNumber = .ok (n, a2) ↔
      (isNumber s = true ∧ n = strtoul0 s.data ∧
        a2 = { a with current := a.current + 1 })) ∧
    (s.data.head? ≠ some '0' → isNumber s = true →
      strtoul0 s.data = decVal s.data) := by
  refine ⟨?_, by decide, ?_, ?_⟩
  · unfold isNumber isNumberL
    simp only [Bool.and_eq_true, List.all_eq_true]
    constructor
    · rintro ⟨⟨hne, hlen⟩, hdig⟩
      refine ⟨?_, by simpa using hlen, ?_⟩
      · rcases hd : s.data with _ | _
        · rw [hd] at hne
          simp at hne
        · simp [hd]
      · intro c hc
        have := hdig c hc
        simpa [Char.isDigit, Char.le_def, ge_iff_le] using this
    · rintro ⟨h1, h10, hdig⟩
      refine ⟨⟨?_, by simpa using h10⟩, ?_⟩
      · cases hd : s.data with
        | nil =>
          rw [hd] at h1
          simp at h1
        | cons c cs2 => rfl
      · intro c hc
        have := hdig c hc
        simpa [Char.isDigit, Char.le_def, ge_iff_le] using this
  · intro n a2
    have hb : a.asNumber = (if isNumber s then
        Except.ok (strtoul0 s.data,
          ({ a with current := a.current + 1 } : Arguments))
      else Except.error (.invalidArg ("Invalid numeric argument: " ++ s))) := by
      unfold Arguments.asNumber
      rw [asText_of_peek hpeek]
    rw [hb]
    by_cases hnum : isNumber s = true
    · rw [if_pos hnum]
      constructor
      · intro h
        simp only [Except.ok.injEq, Prod.mk.injEq] at h
        exact ⟨hnum, h.1.symm, h.2.symm⟩
      · rintro ⟨-, rfl, rfl⟩
        rfl
    · rw [if_neg hnum]
      constructor
      · intro h
        cases h
      · rintro ⟨hn, -, -⟩
        exact absurd hn hnum
  · intro hhead hnum
    rw [strtoul0_not_zero s.data hhead]
    congr 1
    apply takeWhile_all
    unfold isNumber isNumberL at hnum
    simp only [Bool.and_eq_true, List.all_eq_true] at hnum
    exact hnum.2

theorem c9_counterexample :
    Arguments.asNumber ⟨["010"], 0⟩ = .ok (8, ⟨["010"], 1⟩) ∧
    decVal "010".data = 10 ∧ (8 : Nat) ≠ 10 := by
  exact ⟨by rfl, by rfl, by decide⟩

theorem c9_witness :
    Arguments.asNumber ⟨["100"], 0⟩ = .ok (100, ⟨["100"], 1⟩) := by
  have h := c9_isNumber_asNumber "100" ⟨["100"], 0⟩ rfl
  exact (h.2.2.1 100 ⟨["100"], 1⟩).mpr ⟨by decide, by decide, rfl⟩

/-! ## Claim C8 -/

/-- C8: the cursor contract: `peek` returns the current token and never
fails (`none` when exhausted); `operator++` fails with "Not enough
arguments" exactly when the cursor is already at the end, and otherwise
moves it forward exactly one position leaving the token list unchanged;
`expectEnd` fails naming the first unconsumed token exactly when the cursor
is not at the end, and otherwise succeeds silently (it is `const` and never
changes state). -/
theorem c8_cursor_contract (a : Arguments)
    (hinv : a.current ≤ a.args.length) :
    (∀ h : a.current < a.args.length,
        a.peek = some (a.args.get ⟨a.current, h⟩)) ∧
    (a.current = a.args.length → a.peek = none) ∧
    (a.inc = .error (.invalidArg "Not enough arguments") ↔
      a.current = a.args.length) ∧
    (∀ a2, a.inc = .ok a2 ↔
      (a.current < a.args.length ∧ a2.args = a.args ∧
        a2.current = a.current + 1)) ∧
    (∀ e, a.expectEnd = .error e ↔
      (∃ h : a.current < a.args.length,
        e = .invalidArg ("Unexpected arguments: " ++
          a.args.get ⟨a.current, h⟩))) ∧
    (a.current = a.args.length → a.expectEnd = .ok ()) := by
  refine ⟨?_, ?_, ?_, ?_, ?_, ?_⟩
  · intro h
    unfold Arguments.peek
    exact List.get?_eq_get h
  · intro h
    unfold Arguments.peek
    exact List.get?_eq_none.mpr (le_of_eq h.symm)
  · unfold Arguments.inc
    by_cases h : a.current = a.args.length
    · rw [if_pos h]
      simp [h]
    · rw [if_neg h]
      simp [h]
  · intro a2
    unfold Arguments.inc
    by_cases h : a.current = a.args.length
    · rw [if_pos h]
      constructor
      · intro hh
        cases hh
      · rintro ⟨hlt, -, -⟩
        omega
    · rw [if_neg h]
      constructor
      · intro hh
        simp only [Except.ok.injEq] at hh
        subst hh
        exact ⟨lt_of_le_of_ne hinv h, rfl, rfl⟩
      · rintro ⟨hlt, hargs, hcur⟩
        cases a2 with
        | mk args2 cur2 =>
          simp only at hargs hcur
          subst hargs hcur
          rfl
  · intro e
    unfold Arguments.expectEnd
    by_cases h : a.current = a.args.length
    · rw [if_neg (by simpa using h)]
      constructor
      · intro hh
        cases hh
      · rintro ⟨hlt, -⟩
        omega
    · rw [if_pos h]
      have hlt : a.current < a.args.length := lt_of_le_of_ne hinv h
      have hgd : a.args.getD a.current "" = a.args.get ⟨a.current, hlt⟩ :=
        List.getD_eq_get a.args "" hlt
      constructor
      · intro hh
        simp only [Except.error.injEq] at hh
        refine ⟨hlt, ?_⟩
        rw [← hh, hgd]
      · rintro ⟨h2, rfl⟩
        rw [hgd]
  · intro h
    unfold Arguments.expectEnd
    rw [if_neg (by simpa using h)]

theorem c8_witness :
    (⟨["a"], 0⟩ : Arguments).expectEnd =
      .error (.invalidArg "Unexpected arguments: a") ∧
    (⟨["a"], 1⟩ : Arguments).expectEnd = .ok () ∧
    (⟨["a"], 0⟩ : Arguments).peek = some "a" ∧
    (⟨["a"], 1⟩ : Arguments).peek = none ∧
    (⟨["a"], 1⟩ : Arguments).inc =
      .error (.invalidArg "Not enough arguments") := by
  have h0 := c8_cursor_contract ⟨["a"], 0⟩ (by decide)
  have h1 := c8_cursor_contract ⟨["a"], 1⟩ (by decide)
  refine ⟨?_, h1.2.2.2.2.2 rfl, h0.1 (by decide), h1.2.1 rfl, ?_⟩
  · exact (h0.2.2.2.2.1 _).mpr ⟨by decide, rfl⟩
  · exact h1.2.2.1.mpr rfl

/-! ## Claim C2 -/

/-- The claim's wording of one FQDN label: 1..63 characters, letters,
digits and hyphens only (case-insensitive), with no leading and no trailing
hyphen. -/
def specLabel (l : List Char) : Prop :=
  1 ≤ l.length ∧ l.length ≤ 63 ∧
  (∀ c ∈ l, c.isDigit = true ∨ ('a' ≤ c ∧ c ≤ 'z') ∨
    ('A' ≤ c ∧ c ≤ 'Z') ∨ c = '-') ∧
  (∀ c, l.head? = some c → c ≠ '-') ∧
  (∀ c, l.getLast? = some c → c ≠ '-')

/-- The claim's wording of the final (rightmost) label: a label that
additionally does not begin with a digit. -/
def specFinalLabel (l : List Char) : Prop :=
  specLabel l ∧ ∀ c, l.head? = some c → c.isDigit = false

/-- The claim's wording of the FQDN grammar: total length at most 255,
1 to 127 dot-separated labels, an optional trailing dot, every non-final
label a `specLabel` and the final label a `specFinalLabel`. -/
def specFqdn (cs : List Char) : Prop :=
  cs.length ≤ 255 ∧
  ∃ (labels : List (List Char)) (trailingDot : Bool),
    1 ≤ labels.length ∧ labels.length ≤ 127 ∧
    cs = joinSep '.' labels ++ (if trailingDot then ['.'] else []) ∧
    (∀ l ∈ labels.dropLast, specLabel l) ∧
    (∀ l, labels.getLast? = some l → specFinalLabel l)

theorem isLdh_iff (c : Char) : isLdh c = true ↔
    (c.isDigit = true ∨ ('a' ≤ c ∧ c ≤ 'z') ∨ ('A' ≤ c ∧ c ≤ 'Z') ∨
      c = '-') := by
  simp [isLdh, isAlphaNumI, Bool.or_eq_true, decide_eq_true_eq, or_assoc]

theorem ldh_ne_dot {c : Char} (h : c.isDigit = true ∨ ('a' ≤ c ∧ c ≤ 'z') ∨
    ('A' ≤ c ∧ c ≤ 'Z') ∨ c = '-') : c ≠ '.' := by
  rintro rfl
  rcases h with h | h | h | h
  · exact absurd h (by decide)
  · exact absurd h.1 (by decide)
  · exact absurd h.1 (by decide)
  · exact absurd h (by decide)

theorem isAlphaNumI_iff_ne_dash {c : Char} (hldh : isLdh c = true) :
    isAlphaNumI c = true ↔ c ≠ '-' := by
  simp only [isLdh, Bool.or_eq_true, decide_eq_true_eq] at hldh
  constructor
  · intro ha
    rintro rfl
    simp only [isAlphaNumI, Bool.or_eq_true, Bool.and_eq_true,
      decide_eq_true_eq] at ha
    rcases ha with (h | h) | h
    · exact absurd h (by decide)
    · exact absurd h.1 (by decide)
    · exact absurd h.1 (by decide)
  · intro hne
    rcases hldh with h | h
    · exact h
    · exact absurd h hne

theorem innerLabelOk_iff (l : List Char) :
    innerLabelOk l = true ↔ specLabel l := by
  unfold innerLabelOk specLabel
  simp only [Bool.and_eq_true, List.all_eq_true, Bool.not_eq_true',
    decide_eq_false_iff_not]
  constructor
  · rintro ⟨⟨⟨⟨hne, hlen⟩, hldh⟩, hhead⟩, hlast⟩
    have hnil : l ≠ [] := by simpa [List.isEmpty_iff] using hne
    refine ⟨by cases l with
      | nil => exact absurd rfl hnil
      | cons c cs => simp, by simpa using hlen,
      fun c hc => (isLdh_iff c).mp (hldh c hc), ?_, ?_⟩
    · intro c hc
      rintro rfl
      exact hhead hc
    · intro c hc
      rintro rfl
      have hmem := getLast?_mem hc
      rw [hc] at hlast
      simp only at hlast
      rw [isAlphaNumI_iff_ne_dash (hldh _ hmem)] at hlast
      exact hlast rfl
  · rintro ⟨h1, h63, hcls, hhead, hlast⟩
    have hnil : l ≠ [] := by
      intro hd
      rw [hd] at h1
      simp at h1
    refine ⟨⟨⟨⟨by simpa [List.isEmpty_iff] using hnil, by simpa using h63⟩,
      fun c hc => (isLdh_iff c).mpr (hcls c hc)⟩, ?_⟩, ?_⟩
    · intro hc
      exact hhead '-' hc rfl
    · cases hl : l.getLast? with
      | none =>
        rw [List.getLast?_eq_none_iff] at hl
        exact absurd hl hnil
      | some c =>
        have hmem := getLast?_mem hl
        simp only
        rw [isAlphaNumI_iff_ne_dash ((isLdh_iff c).mpr (hcls c hmem))]
        exact hlast c hl

theorem lastLabelOk_iff (l : List Char) :
    lastLabelOk l = true ↔ specFinalLabel l := by
  unfold specFinalLabel
  rw [← innerLabelOk_iff]
  unfold lastLabelOk innerLabelOk
  simp only [Bool.and_eq_true, Bool.not_eq_true']
  constructor
  · rintro ⟨⟨⟨⟨hne, hlen⟩, hldh⟩, hhead⟩, hlast⟩
    have hheadsplit : ∀ c, l.head? = some c →
        c.isDigit = false ∧ ¬(c = '-') := by
      intro c hc
      rw [hc] at hhead
      simp only [Bool.or_eq_false_iff, decide_eq_false_iff_not] at hhead
      exact hhead
    refine ⟨⟨⟨⟨⟨hne, hlen⟩, hldh⟩, ?_⟩, hlast⟩, fun c hc =>
      (hheadsplit c hc).1⟩
    cases hh : l.head? with
    | none => decide
    | some c =>
      simp only [decide_eq_false_iff_not, Option.some.injEq]
      exact fun he => (hheadsplit c hh).2 he
  · rintro ⟨⟨⟨⟨⟨hne, hlen⟩, hldh⟩, hhead⟩, hlast⟩, hdig⟩
    refine ⟨⟨⟨⟨hne, hlen⟩, hldh⟩, ?_⟩, hlast⟩
    cases hh : l.head? with
    | none =>
      rw [List.head?_eq_none_iff] at hh
      rw [hh] at hne
      simp at hne
    | some c =>
      have h1 : c.isDigit = false := hdig c hh
      have h2 : decide (c = '-') = false := by
        rw [hh] at hhead
        simpa using hhead
      simp only [h1, h2, Bool.or_self]

theorem getLast?_joinSep (sep : Char) :
    ∀ (gs : List (List Char)) (g : List Char), (∀ x ∈ gs, x ≠ []) →
      gs.getLast? = some g → (joinSep sep gs).getLast? = g.getLast? := by
  intro gs
  induction gs with
  | nil =>
    intro g _ h
    cases h
  | cons g0 gs ih =>
    intro g hne h
    cases gs with
    | nil =>
      simp only [List.getLast?_singleton, Option.some.injEq] at h
      subst h
      rfl
    | cons g1 gs2 =>
      rw [List.getLast?_cons_cons] at h
      rw [joinSep_cons₂]
      have hj : joinSep sep (g1 :: gs2) ≠ [] :=
        joinSep_ne_nil (hne g1 (by simp))
      rw [List.getLast?_append_of_ne_nil g0
        (by simp : (sep :: joinSep sep (g1 :: gs2)) ≠ [])]
      have hstep : (sep :: joinSep sep (g1 :: gs2)).getLast? =
          (joinSep sep (g1 :: gs2)).getLast? := by
        show (([sep] ++ joinSep sep (g1 :: gs2)).getLast? = _)
        rw [List.getLast?_append_of_ne_nil [sep] hj]
      rw [hstep]
      exact ih g (fun x hx => hne x (List.mem_cons_of_mem g0 hx)) h

theorem specLabel_of_mem {labels : List (List Char)} {lastL l : List Char}
    (hl : labels.getLast? = some lastL) (hfin : specFinalLabel lastL)
    (hinner : ∀ x ∈ labels.dropLast, specLabel x) (hmem : l ∈ labels) :
    specLabel l := by
  obtain ⟨init, rfl⟩ := List.getLast?_eq_some_iff.mp hl
  rw [List.dropLast_concat] at hinner
  rcases List.mem_append.mp hmem with hm | hm
  · exact hinner l hm
  · simp only [List.mem_cons, List.not_mem_nil, or_false] at hm
    subst hm
    exact hfin.1

theorem specLabel_ne_nil {l : List Char} (h : specLabel l) : l ≠ [] := by
  intro hd
  have := h.1
  rw [hd] at this
  simp at this

theorem specLabel_no_dot {l : List Char} (h : specLabel l) : '.' ∉ l :=
  fun hmem => absurd rfl (ldh_ne_dot (h.2.2.1 '.' hmem))

theorem fqdnMatch_iff_spec (cs : List Char) :
    fqdnMatch cs = true ↔ specFqdn cs := by
  constructor
  · intro h
    unfold fqdnMatch at h
    simp only [Bool.and_eq_true, decide_eq_true_eq, List.all_eq_true] at h
    obtain ⟨⟨h1, h255⟩, ⟨h127, hlastm⟩, hinner⟩ := h
    refine ⟨h255, ?_⟩
    by_cases hdot : cs.getLast? = some '.'
    · rw [if_pos hdot] at h127 hlastm hinner
      obtain ⟨pre, hpre⟩ := List.getLast?_eq_some_iff.mp hdot
      have hdl : cs.dropLast = pre := by
        rw [hpre, List.dropLast_concat]
      rw [hdl] at h127 hlastm hinner
      cases hl : (splitOnChar '.' pre).getLast? with
      | none =>
        rw [List.getLast?_eq_none_iff] at hl
        exact absurd hl (splitOnChar_ne_nil '.' pre)
      | some lastL =>
        rw [hl] at hlastm
        refine ⟨splitOnChar '.' pre, true, ?_, h127, ?_, ?_, ?_⟩
        · have := splitOnChar_ne_nil '.' pre
          cases hx : splitOnChar '.' pre with
          | nil => exact absurd hx this
          | cons y ys => simp [hx]
        · rw [joinSep_splitOnChar, hpre]
          simp
        · intro l hmem
          exact (innerLabelOk_iff l).mp (hinner l hmem)
        · intro l hml
          rw [hl] at hml
          cases hml
          exact (lastLabelOk_iff _).mp hlastm
    · rw [if_neg hdot] at h127 hlastm hinner
      cases hl : (splitOnChar '.' cs).getLast? with
      | none =>
        rw [List.getLast?_eq_none_iff] at hl
        exact absurd hl (splitOnChar_ne_nil '.' cs)
      | some lastL =>
        rw [hl] at hlastm
        refine ⟨splitOnChar '.' cs, false, ?_, h127, ?_, ?_, ?_⟩
        · have := splitOnChar_ne_nil '.' cs
          cases hx : splitOnChar '.' cs with
          | nil => exact absurd hx this
          | cons y ys => simp [hx]
        · rw [joinSep_splitOnChar]
          simp
        · intro l hmem
          exact (innerLabelOk_iff l).mp (hinner l hmem)
        · intro l hml
          rw [hl] at hml
          cases hml
          exact (lastLabelOk_iff _).mp hlastm
  · rintro ⟨h255, labels, trailingDot, h1, h127, heq, hinner, hlastP⟩
    have hlne : labels ≠ [] := by
      intro hd
      rw [hd] at h1
      simp at h1
    cases hl : labels.getLast? with
    | none =>
      rw [List.getLast?_eq_none_iff] at hl
      exact absurd hl hlne
    | some lastL =>
      have hfin := hlastP lastL hl
      have hallspec : ∀ l ∈ labels, specLabel l :=
        fun l hm => specLabel_of_mem hl hfin hinner hm
      have hallne : ∀ l ∈ labels, l ≠ [] :=
        fun l hm => specLabel_ne_nil (hallspec l hm)
      have halldot : ∀ l ∈ labels, '.' ∉ l :=
        fun l hm => specLabel_no_dot (hallspec l hm)
      have hjne : joinSep '.' labels ≠ [] := by
        cases hx : labels with
        | nil => exact absurd hx hlne
        | cons y ys =>
          exact joinSep_ne_nil (hallne y (by rw [hx]; simp))
      have hjlast : (joinSep '.' labels).getLast? = lastL.getLast? :=
        getLast?_joinSep '.' labels lastL hallne hl
      have hlastchar : ∀ c, lastL.getLast? = some c → c ≠ '.' := by
        intro c hc
        exact ldh_ne_dot (hfin.1.2.2.1 c (getLast?_mem hc))
      have hjlast_ne : (joinSep '.' labels).getLast? ≠ some '.' := by
        rw [hjlast]
        cases hc : lastL.getLast? with
        | none =>
          rw [List.getLast?_eq_none_iff] at hc
          exact absurd hc (specLabel_ne_nil hfin.1)
        | some c =>
          intro he
          injection he with he2
          exact hlastchar c hc he2
      have hsplit : splitOnChar '.' (joinSep '.' labels) = labels :=
        splitOnChar_joinSep '.' labels hlne halldot
      unfold fqdnMatch
      simp only [Bool.and_eq_true, decide_eq_true_eq, List.all_eq_true]
      cases htd : trailingDot with
      | true =>
        rw [htd] at heq
        simp only [if_true] at heq
        have hcslast : cs.getLast? = some '.' := by
          rw [heq]
          exact List.getLast?_concat _
        have hbody : cs.dropLast = joinSep '.' labels := by
          rw [heq, List.dropLast_concat]
        refine ⟨⟨?_, h255⟩, ⟨?_, ?_⟩, ?_⟩
        · rw [heq]
          simp
        · rw [if_pos hcslast, hbody, hsplit]
          exact h127
        · rw [if_pos hcslast, hbody, hsplit, hl]
          exact (lastLabelOk_iff lastL).mpr hfin
        · intro l hmem
          rw [if_pos hcslast, hbody, hsplit] at hmem
          exact (innerLabelOk_iff l).mpr (hinner l hmem)
      | false =>
        rw [htd] at heq
        simp only [Bool.false_eq_true, if_false, List.append_nil] at heq
        have hcslast : ¬(cs.getLast? = some '.') := by
          rw [heq]
          exact hjlast_ne
        refine ⟨⟨?_, h255⟩, ⟨?_, ?_⟩, ?_⟩
        · rw [heq]
          have := List.length_pos.mpr hjne
          omega
        · rw [if_neg hcslast, heq, hsplit]
          exact h127
        · rw [if_neg hcslast, heq, hsplit, hl]
          exact (lastLabelOk_iff lastL).mpr hfin
        · intro l hmem
          rw [if_neg hcslast, heq, hsplit] at hmem
          exact (innerLabelOk_iff l).mpr (hinner l hmem)

set_option maxRecDepth 8192 in
/-- C2: for every string that does not parse as an IP literal, `asIpOrFQDN`
accepts it iff it matches the FQDN grammar — total length at most 255, 1 to
127 dot-separated labels of 1..63 letters, digits and internal hyphens
(case-insensitively, no leading or trailing hyphen), an optional trailing
dot, and a final label not beginning with a digit or hyphen; accepted
strings are returned unchanged; in particular `"-foo-bar.com"`,
`"foo-bar-.com"`, `"foo_bar.com"`, `"."`, a 64-character label and a
256-character input are rejected with an invalid-argument error. -/
theorem c2_fqdn_grammar (s : String) (hip : parseIpCore s.data = none) :
    ((∃ r, ipOrFqdnStr s = .ok r) ↔ specFqdn s.data) ∧
    (∀ r, ipOrFqdnStr s = .ok r → r = s) ∧
    (∀ e, ipOrFqdnStr s = .error e → e = .invalidArg ("Invalid argument: "
      ++ s ++ ", expected IP address or FQDN. " ++
      "Please, enter IPv4-addresses in dotted-decimal format.")) ∧
    (∃ e1, ipOrFqdnStr "-foo-bar.com" = .error e1) ∧
    (∃ e2, ipOrFqdnStr "foo-bar-.com" = .error e2) ∧
    (∃ e3, ipOrFqdnStr "foo_bar.com" = .error e3) ∧
    (∃ e4, ipOrFqdnStr "." = .error e4) ∧
    (∃ e5, ipOrFqdnStr
      (String.mk (List.replicate 64 'a' ++ '.' :: "com".data)) =
        .error e5) ∧
    (∃ e6, ipOrFqdnStr
      (String.mk ((List.replicate 23 "1234567890.".data).join ++
        "com".data)) = .error e6) := by
  have hb : ipOrFqdnStr s = (if fqdnMatch s.data then .ok s
      else .error (.invalidArg ("Invalid argument: " ++ s ++
        ", expected IP address or FQDN. " ++
        "Please, enter IPv4-addresses in dotted-decimal format."))) := by
    unfold ipOrFqdnStr
    rw [hip]
  refine ⟨?_, ?_, ?_, ⟨_, rfl⟩, ⟨_, rfl⟩, ⟨_, rfl⟩, ⟨_, rfl⟩, ⟨_, rfl⟩,
    ⟨_, rfl⟩⟩
  · rw [hb]
    by_cases hf : fqdnMatch s.data = true
    · rw [if_pos hf]
      constructor
      · intro _
        exact (fqdnMatch_iff_spec s.data).mp hf
      · intro _
        exact ⟨s, rfl⟩
    · rw [if_neg hf]
      constructor
      · rintro ⟨r, hr⟩
        cases hr
      · intro hspec
        exact absurd ((fqdnMatch_iff_spec s.data).mpr hspec) hf
  · intro r h
    rw [hb] at h
    by_cases hf : fqdnMatch s.data = true
    · rw [if_pos hf] at h
      injection h with h2
      exact h2.symm
    · rw [if_neg hf] at h
      cases h
  · intro e h
    rw [hb] at h
    by_cases hf : fqdnMatch s.data = true
    · rw [if_pos hf] at h
      cases h
    · rw [if_neg hf] at h
      injection h with h2
      exact h2.symm

theorem c2_witness : ipOrFqdnStr "a.com" = .ok "a.com" := by
  have h := c2_fqdn_grammar "a.com" (by rfl)
  have hspec : specFqdn "a.com".data := by
    refine ⟨by decide, ["a".data, "com".data], false, by decide, by decide,
      by decide, ?_, ?_⟩
    · intro l hl
      have hli : l = "a".data := by simpa using hl
      subst hli
      exact (innerLabelOk_iff _).mp (by decide)
    · intro l hl
      rw [show (["a".data, "com".data] : List (List Char)).getLast? =
        some "com".data from rfl] at hl
      injection hl with h2
      subst h2
      exact (lastLabelOk_iff _).mp (by decide)
  obtain ⟨r, hr⟩ := h.1.mpr hspec
  have heq := h.2.1 r hr
  rw [heq] at hr
  exact hr

/-! ## Claim C5 -/

/-- C5 (code bug): the regex's final-label lookahead rejects all-numeric
single labels, so `asIpOrFQDN` throws on `"123"` although the repository's
own unit test `IpOrFQDNPositive` expects it accepted; the remaining listed
inputs are accepted and returned unchanged. -/
theorem c5_asIpOrFQDN_examples :
    Arguments.asIpOrFQDN ⟨["a.com"], 0⟩ = .ok ("a.com", ⟨["a.com"], 1⟩) ∧
    Arguments.asIpOrFQDN ⟨["foo-bar.com"], 0⟩ =
      .ok ("foo-bar.com", ⟨["foo-bar.com"], 1⟩) ∧
    Arguments.asIpOrFQDN ⟨["1.2.3.4.com"], 0⟩ =
      .ok ("1.2.3.4.com", ⟨["1.2.3.4.com"], 1⟩) ∧
    Arguments.asIpOrFQDN ⟨["xn--d1abbgf6aiiy.xn--p1ai"], 0⟩ =
      .ok ("xn--d1abbgf6aiiy.xn--p1ai", ⟨["xn--d1abbgf6aiiy.xn--p1ai"], 1⟩) ∧
    Arguments.asIpOrFQDN ⟨["text"], 0⟩ = .ok ("text", ⟨["text"], 1⟩) ∧
    Arguments.asIpOrFQDN ⟨["123"], 0⟩ =
      .error (.invalidArg ("Invalid argument: 123, " ++
        "expected IP address or FQDN. " ++
        "Please, enter IPv4-addresses in dotted-decimal format.")) := by
  exact ⟨rfl, rfl, rfl, rfl, rfl, rfl⟩

/-! ## Claims C6 and C7: port parsing via the stoi model -/

theorem head_dropWhile_not (p : Char → Bool) (l : List Char) :
    ∀ c, (l.dropWhile p).head? = some c → p c = false := by
  induction l with
  | nil =>
    intro c h
    cases h
  | cons a l ih =>
    intro c h
    rw [List.dropWhile_cons] at h
    by_cases hp : p a = true
    · rw [if_pos hp] at h
      exact ih c h
    · rw [if_neg hp] at h
      injection h with h2
      subst h2
      simpa using hp

theorem takeWhile_append_all (p : Char → Bool) (l₁ l₂ : List Char)
    (h1 : ∀ c ∈ l₁, p c = true)
    (h2 : ∀ c, l₂.head? = some c → p c = false) :
    (l₁ ++ l₂).takeWhile p = l₁ := by
  induction l₁ with
  | nil =>
    simp only [List.nil_append]
    cases l₂ with
    | nil => rfl
    | cons b t =>
      rw [List.takeWhile_cons, if_neg (by simp [h2 b rfl])]
  | cons a t ih =>
    simp only [List.cons_append, List.takeWhile_cons]
    rw [if_pos (h1 a (List.mem_cons_self a t))]
    rw [ih (fun c hc => h1 c (List.mem_cons_of_mem a hc))]

theorem dropWhile_append_all (p : Char → Bool) (l₁ l₂ : List Char)
    (h1 : ∀ c ∈ l₁, p c = true)
    (h2 : ∀ c, l₂.head? = some c → p c = false) :
    (l₁ ++ l₂).dropWhile p = l₂ := by
  induction l₁ with
  | nil =>
    simp only [List.nil_append]
    cases l₂ with
    | nil => rfl
    | cons b t =>
      rw [List.dropWhile_cons, if_neg (by simp [h2 b rfl])]
  | cons a t ih =>
    simp only [List.cons_append, List.dropWhile_cons]
    rw [if_pos (h1 a (List.mem_cons_self a t))]
    exact ih (fun c hc => h1 c (List.mem_cons_of_mem a hc))

theorem isDigit_not_space (c : Char) (h : c.isDigit = true) :
    isSpaceC c = false := by
  simp only [isSpaceC, Bool.or_eq_false_iff, decide_eq_false_iff_not]
  refine ⟨⟨⟨⟨⟨?_, ?_⟩, ?_⟩, ?_⟩, ?_⟩, ?_⟩
  all_goals intro he
  all_goals subst he
  all_goals exact absurd h (by decide)

theorem stoiModel_minus (cs t : List Char)
    (h : cs.dropWhile isSpaceC = '-' :: t) :
    stoiModel cs = stoiCore true t := by
  unfold stoiModel
  rw [h]
  rfl

theorem stoiModel_plus (cs t : List Char)
    (h : cs.dropWhile isSpaceC = '+' :: t) :
    stoiModel cs = stoiCore false t := by
  unfold stoiModel
  rw [h]
  rfl

theorem stoiModel_nosign (cs t : List Char)
    (h : cs.dropWhile isSpaceC = t)
    (hne : ∀ r, t ≠ '-' :: r) (hne2 : ∀ r, t ≠ '+' :: r) :
    stoiModel cs = stoiCore false t := by
  unfold stoiModel
  rw [h]
  split
  · rename_i r
    exact absurd rfl (hne r)
  · rename_i r
    exact absurd rfl (hne2 r)
  · rfl

theorem stoiCore_ok (neg : Bool) (t : List Char)
    (hne : t.takeWhile Char.isDigit ≠ [])
    (hle : decVal (t.takeWhile Char.isDigit) ≤ 2147483647) :
    stoiCore neg t =
      .val (if neg then -(decVal (t.takeWhile Char.isDigit) : Int)
            else (decVal (t.takeWhile Char.isDigit) : Int)) := by
  simp only [stoiCore]
  rw [if_neg (by simpa [List.isEmpty_iff] using hne)]
  rw [if_neg]
  have h0 : (0 : Int) ≤ (decVal (t.takeWhile Char.isDigit) : Int) :=
    Int.natCast_nonneg _
  have h1 : (decVal (t.takeWhile Char.isDigit) : Int) ≤ 2147483647 := by
    exact_mod_cast hle
  cases neg with
  | false =>
    simp only [Bool.false_eq_true, if_false, not_or, not_lt]
    exact ⟨by omega, by omega⟩
  | true =>
    simp only [if_true, not_or, not_lt]
    exact ⟨by omega, by omega⟩

theorem stoiCore_val_inv (neg : Bool) (t : List Char) (v : Int)
    (h : stoiCore neg t = .val v) :
    t.takeWhile Char.isDigit ≠ [] ∧
    v = (if neg then -(decVal (t.takeWhile Char.isDigit) : Int)
         else (decVal (t.takeWhile Char.isDigit) : Int)) := by
  simp only [stoiCore] at h
  by_cases hds : (t.takeWhile Char.isDigit).isEmpty = true
  · rw [if_pos hds] at h
    cases h
  · rw [if_neg hds] at h
    by_cases hr : ((if neg then -(decVal (t.takeWhile Char.isDigit) : Int)
        else (decVal (t.takeWhile Char.isDigit) : Int)) < -2147483648 ∨
        (2147483647 : Int) <
          (if neg then -(decVal (t.takeWhile Char.isDigit) : Int)
           else (decVal (t.takeWhile Char.isDigit) : Int)))
    · rw [if_pos hr] at h
      cases h
    · rw [if_neg hr] at h
      injection h with h2
      refine ⟨by simpa [List.isEmpty_iff] using hds, h2.symm⟩

/-- C6 (corrected): `parsePortFromString` follows `std::stoi`, not a strict
decimal parse: the input may begin with C-locale blanks and an optional
`'+'` sign, the maximal leading digit run is converted and trailing
characters are ignored; the call succeeds exactly when that digit run is
nonempty and its value lies in 1..65535, returning that value; `"0"` and
`"70000"` are rejected with the invalid-port-number message naming the
1 - 65535 range. -/
theorem c6_port_stoi (s : String) :
    (∀ p, parsePortFromString s = .ok p →
      ∃ ws sgn ds rest, s.data = ws ++ sgn ++ ds ++ rest ∧
        (∀ c ∈ ws, isSpaceC c = true) ∧
        (sgn = [] ∨ sgn = ['+']) ∧
        ds ≠ [] ∧ (∀ c ∈ ds, c.isDigit = true) ∧
        (∀ c, rest.head? = some c → c.isDigit = false) ∧
        1 ≤ decVal ds ∧ decVal ds ≤ 65535 ∧ p = decVal ds) ∧
    (∀ ws sgn ds rest, s.data = ws ++ sgn ++ ds ++ rest →
      (∀ c ∈ ws, isSpaceC c = true) →
      (sgn = [] ∨ sgn = ['+']) →
      ds ≠ [] → (∀ c ∈ ds, c.isDigit = true) →
      (∀ c, rest.head? = some c → c.isDigit = false) →
      1 ≤ decVal ds → decVal ds ≤ 65535 →
      parsePortFromString s = .ok (decVal ds)) ∧
    parsePortFromString "0" = .error (.invalidArg
      ("Invalid port number: " ++ "0" ++
        ", expected an integer in the range 1 - 65535")) ∧
    parsePortFromString "70000" = .error (.invalidArg
      ("Invalid port number: " ++ "70000" ++
        ", expected an integer in the range 1 - 65535")) := by
  refine ⟨?_, ?_, rfl, rfl⟩
  · intro p hp
    cases hstoi : stoiModel s.data with
    | noConv =>
      have hp2 : (Except.error (Err.invalidArg ("Invalid port number: " ++ s ++
          ", expected an integer in the range 1 - 65535")) : Except Err Nat) =
          .ok p := by
        unfold parsePortFromString at hp
        rw [hstoi] at hp
        exact hp
      cases hp2
    | oor =>
      have hp2 : (Except.error Err.outOfRange : Except Err Nat) = .ok p := by
        unfold parsePortFromString at hp
        rw [hstoi] at hp
        exact hp
      cases hp2
    | val v =>
      have hp2 : (if 0 < v ∧ v ≤ 65535 then (Except.ok v.toNat : Except Err Nat)
          else .error (.invalidArg ("Invalid port number: " ++ s ++
            ", expected an integer in the range 1 - 65535"))) = .ok p := by
        unfold parsePortFromString at hp
        rw [hstoi] at hp
        exact hp
      by_cases hc : 0 < v ∧ v ≤ 65535
      · rw [if_pos hc] at hp2
        injection hp2 with hpv
        cases ht : s.data.dropWhile isSpaceC with
        | nil =>
          rw [stoiModel_nosign s.data [] ht (by intro r h2; cases h2)
            (by intro r h2; cases h2)] at hstoi
          rw [show stoiCore false [] = StoiOut.noConv from rfl] at hstoi
          cases hstoi
        | cons c r =>
          by_cases hcm : c = '-'
          · subst hcm
            rw [stoiModel_minus s.data r ht] at hstoi
            obtain ⟨hds, hv⟩ := stoiCore_val_inv true r v hstoi
            simp only [if_true] at hv
            have h0 : (0 : Int) ≤ (decVal (r.takeWhile Char.isDigit) : Int) :=
              Int.natCast_nonneg _
            have h1 := hc.1
            omega
          · by_cases hcp : c = '+'
            · subst hcp
              rw [stoiModel_plus s.data r ht] at hstoi
              obtain ⟨hds, hv⟩ := stoiCore_val_inv false r v hstoi
              simp only [Bool.false_eq_true, if_false] at hv
              refine ⟨s.data.takeWhile isSpaceC, ['+'],
                r.takeWhile Char.isDigit, r.dropWhile Char.isDigit,
                ?_, ?_, Or.inr rfl, hds, ?_, ?_, ?_, ?_, ?_⟩
              · have e1 : s.data.takeWhile isSpaceC ++
                    s.data.dropWhile isSpaceC = s.data :=
                  List.takeWhile_append_dropWhile isSpaceC s.data
                have e2 : r.takeWhile Char.isDigit ++
                    r.dropWhile Char.isDigit = r :=
                  List.takeWhile_append_dropWhile Char.isDigit r
                conv_lhs => rw [← e1, ht]
                simp only [List.append_assoc, List.singleton_append,
                  List.cons_append, List.nil_append]
                rw [e2]
              · intro c2 hc2
                exact List.mem_takeWhile_imp hc2
              · intro c2 hc2
                exact List.mem_takeWhile_imp hc2
              · exact head_dropWhile_not Char.isDigit r
              · have h1 := hc.1
                rw [hv] at h1
                exact_mod_cast h1
              · have h1 := hc.2
                rw [hv] at h1
                exact_mod_cast h1
              · rw [← hpv, hv]
                omega
            · rw [stoiModel_nosign s.data (c :: r) ht
                (by intro r2 h2; injection h2 with h3 h4; exact hcm h3)
                (by intro r2 h2; injection h2 with h3 h4; exact hcp h3)]
                at hstoi
              obtain ⟨hds, hv⟩ := stoiCore_val_inv false (c :: r) v hstoi
              simp only [Bool.false_eq_true, if_false] at hv
              refine ⟨s.data.takeWhile isSpaceC, [],
                (c :: r).takeWhile Char.isDigit,
                (c :: r).dropWhile Char.isDigit,
                ?_, ?_, Or.inl rfl, hds, ?_, ?_, ?_, ?_, ?_⟩
              · have e1 : s.data.takeWhile isSpaceC ++
                    s.data.dropWhile isSpaceC = s.data :=
                  List.takeWhile_append_dropWhile isSpaceC s.data
                have e2 : (c :: r).takeWhile Char.isDigit ++
                    (c :: r).dropWhile Char.isDigit = (c :: r) :=
                  List.takeWhile_append_dropWhile Char.isDigit (c :: r)
                conv_lhs => rw [← e1, ht]
                simp only [List.append_assoc, List.nil_append]
                rw [e2]
              · intro c2 hc2
                exact List.mem_takeWhile_imp hc2
              · intro c2 hc2
                exact List.mem_takeWhile_imp hc2
              · exact head_dropWhile_not Char.isDigit (c :: r)
              · have h1 := hc.1
                rw [hv] at h1
                exact_mod_cast h1
              · have h1 := hc.2
                rw [hv] at h1
                exact_mod_cast h1
              · rw [← hpv, hv]
                omega
      · rw [if_neg hc] at hp2
        cases hp2
  · intro ws sgn ds rest hcs hws hsgn hds hdig hrest h1 h65
    have hcs2 : s.data = ws ++ (sgn ++ (ds ++ rest)) := by
      rw [hcs]
      simp [List.append_assoc]
    have hhead : ∀ c, (sgn ++ (ds ++ rest)).head? = some c →
        isSpaceC c = false := by
      rcases hsgn with rfl | rfl
      · cases ds with
        | nil => exact absurd rfl hds
        | cons d ds2 =>
          intro c hch
          rw [List.nil_append, List.cons_append, List.head?_cons] at hch
          injection hch with hcd
          subst hcd
          exact isDigit_not_space _ (hdig _ (List.mem_cons_self _ _))
      · intro c hch
        rw [List.cons_append, List.head?_cons] at hch
        injection hch with hcd
        subst hcd
        decide
    have hdrop : s.data.dropWhile isSpaceC = sgn ++ (ds ++ rest) := by
      rw [hcs2]
      exact dropWhile_append_all isSpaceC ws (sgn ++ (ds ++ rest)) hws hhead
    have htw : (ds ++ rest).takeWhile Char.isDigit = ds :=
      takeWhile_append_all Char.isDigit ds rest hdig hrest
    have hstoi : stoiModel s.data = stoiCore false (ds ++ rest) := by
      rcases hsgn with rfl | rfl
      · refine stoiModel_nosign s.data (ds ++ rest) (by simpa using hdrop)
          ?_ ?_
        · cases ds with
          | nil => exact absurd rfl hds
          | cons d ds2 =>
            intro r2 h2
            rw [List.cons_append] at h2
            injection h2 with h3 h4
            have hd := hdig d (List.mem_cons_self _ _)
            rw [h3] at hd
            exact absurd hd (by decide)
        · cases ds with
          | nil => exact absurd rfl hds
          | cons d ds2 =>
            intro r2 h2
            rw [List.cons_append] at h2
            injection h2 with h3 h4
            have hd := hdig d (List.mem_cons_self _ _)
            rw [h3] at hd
            exact absurd hd (by decide)
      · exact stoiModel_plus s.data (ds ++ rest) (by simpa using hdrop)
    have hcore : stoiCore false (ds ++ rest) = .val (decVal ds) := by
      rw [stoiCore_ok false (ds ++ rest) (by rw [htw]; exact hds)
        (by rw [htw]; omega)]
      simp [htw]
    unfold parsePortFromString
    rw [hstoi, hcore]
    show (if 0 < ((decVal ds : Nat) : Int) ∧ ((decVal ds : Nat) : Int) ≤ 65535
        then (Except.ok ((decVal ds : Nat) : Int).toNat : Except Err Nat)
        else .error (.invalidArg ("Invalid port number: " ++ s ++
          ", expected an integer in the range 1 - 65535"))) = .ok (decVal ds)
    rw [if_pos ⟨by exact_mod_cast h1, by exact_mod_cast h65⟩]
    congr 1

theorem c6_counterexample :
    parsePortFromString "530abc" = .ok 530 ∧
    parsePortFromString " 530" = .ok 530 ∧
    parsePortFromString "+530" = .ok 530 :=
  ⟨rfl, rfl, rfl⟩

theorem c6_witness : parsePortFromString "80" = .ok 80 := by
  have h := (c6_port_stoi "80").2.1 [] [] "80".data [] rfl
    (by intro c hc; cases hc) (Or.inl rfl) (by decide)
    (by decide) (by intro c hc; cases hc) (by decide) (by decide)
  have h2 : decVal "80".data = 80 := rfl
  rw [h2] at h
  exact h

/-- C7 (code bug): not every parser failure is the invalid-argument error
kind: `parsePortFromString` only catches `std::invalid_argument` from
`std::stoi`, so a numeral exceeding `INT_MAX` raises `std::out_of_range`,
which also escapes `parseAddrAndPort` uncaught instead of the
invalid-port-number message. -/
theorem c7_out_of_range_escapes :
    parsePortFromString "99999999999" = .error .outOfRange ∧
    Arguments.parseAddrAndPort ⟨["host:99999999999"], 0⟩ =
      .error .outOfRange :=
  ⟨rfl, rfl⟩

/-! ## Claims C4 and C10: parseAddrAndPort -/

theorem firstIdx_append (p : Char → Bool) (l₁ : List Char) (c : Char)
    (l₂ : List Char) (h1 : ∀ x ∈ l₁, p x = false) (hc : p c = true) :
    firstIdx p (l₁ ++ c :: l₂) = some l₁.length := by
  induction l₁ with
  | nil =>
    simp only [List.nil_append, firstIdx]
    rw [if_pos hc]
    rfl
  | cons a t ih =>
    simp only [List.cons_append, firstIdx]
    rw [if_neg (by simp [h1 a (List.mem_cons_self a t)])]
    rw [List.append_eq, ih (fun x hx => h1 x (List.mem_cons_of_mem a hx))]
    rfl

set_option maxRecDepth 8192 in
/-- C4: `parseAddrAndPort` dispatches on the number of colons in the current
token: with no colon the whole token is validated via `asIpOrFQDN` and
paired with default port 514; with exactly one colon the token is split
there, the left part validated via `asIpOrFQDN` and the right part parsed
as a port; with two or more colons a token starting with `'['` has the text
between `'['` and the first `']'` validated as the host and the text after
`"]:"` parsed as the port, and otherwise the whole token is validated and
paired with port 514; hence `"10.0.0.1"` yields `("10.0.0.1", 514)`,
`"host:530"` yields `("host", 530)`, `"[2001:db8::1]:530"` yields
`("2001:db8::1", 530)` and `"2001:db8::1"` yields `("2001:db8::1", 514)`. -/
theorem c4_colon_dispatch (srv : String) :
    (srv.data.count ':' = 0 →
      addrPortOfToken (some srv) =
        (ipOrFqdnStr srv).map (fun h => (h, 514))) ∧
    (∀ pre post, srv.data = pre ++ ':' :: post → srv.data.count ':' = 1 →
      ((∀ h, ipOrFqdnStr (String.mk pre) = .ok h →
        addrPortOfToken (some srv) =
          (parsePortFromString (String.mk post)).map (fun p => (h, p))) ∧
       (∀ e, ipOrFqdnStr (String.mk pre) = .error e →
        addrPortOfToken (some srv) = .error e))) ∧
    (∀ host post, 2 ≤ srv.data.count ':' →
      srv.data = '[' :: (host ++ ']' :: ':' :: post) →
      (∀ x ∈ host, x ≠ ']') →
      ((∀ h, ipOrFqdnStr (String.mk host) = .ok h →
        addrPortOfToken (some srv) =
          (parsePortFromString (String.mk post)).map (fun p => (h, p))) ∧
       (∀ e, ipOrFqdnStr (String.mk host) = .error e →
        addrPortOfToken (some srv) = .error e))) ∧
    (2 ≤ srv.data.count ':' → srv.data.head? ≠ some '[' →
      addrPortOfToken (some srv) =
        (ipOrFqdnStr srv).map (fun h => (h, 514))) ∧
    Arguments.parseAddrAndPort ⟨["10.0.0.1"], 0⟩ =
      .ok (("10.0.0.1", 514), ⟨["10.0.0.1"], 0⟩) ∧
    Arguments.parseAddrAndPort ⟨["host:530"], 0⟩ =
      .ok (("host", 530), ⟨["host:530"], 0⟩) ∧
    Arguments.parseAddrAndPort ⟨["[2001:db8::1]:530"], 0⟩ =
      .ok (("2001:db8::1", 530), ⟨["[2001:db8::1]:530"], 0⟩) ∧
    Arguments.parseAddrAndPort ⟨["2001:db8::1"], 0⟩ =
      .ok (("2001:db8::1", 514), ⟨["2001:db8::1"], 0⟩) := by
  refine ⟨?_, ?_, ?_, ?_, rfl, rfl, rfl, rfl⟩
  · intro h0
    have e1 : addrPortOfToken (some srv) = setDefaultPortStr srv := by
      simp only [addrPortOfToken]
      rw [if_pos h0]
    rw [e1]
    unfold setDefaultPortStr
    cases ipOrFqdnStr srv <;> rfl
  · intro pre post hcs h1c
    have hpre0 : pre.count ':' = 0 := by
      have h2 := h1c
      rw [hcs, List.count_append, List.count_cons_self] at h2
      omega
    have hnotin : ':' ∉ pre := by
      rw [← List.count_eq_zero]
      exact hpre0
    have hfirst : firstIdx (· = ':') srv.data = some pre.length := by
      rw [hcs]
      exact firstIdx_append (· = ':') pre ':' post
        (fun x hx => by
          simp only [decide_eq_false_iff_not]
          intro he
          subst he
          exact hnotin hx)
        (by decide)
    have e1 : addrPortOfToken (some srv) =
        (match ipOrFqdnStr (String.mk (srv.data.take pre.length)) with
         | .ok h => (match parsePortFromString
             (String.mk (srv.data.drop (pre.length + 1))) with
           | .ok p2 => (Except.ok (h, p2) : Except Err (String × Nat))
           | .error e => .error e)
         | .error e => .error e) := by
      simp only [addrPortOfToken]
      rw [if_neg (by omega), if_pos h1c, hfirst]
    have htake : srv.data.take pre.length = pre := by
      rw [hcs]
      exact List.take_left pre (':' :: post)
    have hdrop : srv.data.drop (pre.length + 1) = post := by
      have h2 : srv.data = (pre ++ [':']) ++ post := by
        rw [hcs]
        simp
      have h3 : (pre ++ [':']).length = pre.length + 1 := by
        simp
      rw [h2, ← h3]
      exact List.drop_left (pre ++ [':']) post
    rw [htake, hdrop] at e1
    constructor
    · intro h hh
      rw [e1, hh]
      show (match parsePortFromString (String.mk post) with
            | .ok p2 => (Except.ok (h, p2) : Except Err (String × Nat))
            | .error e => .error e) =
          (parsePortFromString (String.mk post)).map (fun p => (h, p))
      cases parsePortFromString (String.mk post) <;> rfl
    · intro e he
      rw [e1, he]
  · intro host post h2c hcs hnb
    have hb0 : ¬(srv.data.count ':' = 0) := by omega
    have hb1 : ¬(srv.data.count ':' = 1) := by omega
    have hhead : srv.data.head? = some '[' := by
      rw [hcs]
      rfl
    have hfirst : firstIdx (· = ']') srv.data = some (host.length + 1) := by
      rw [hcs]
      simp only [firstIdx]
      rw [if_neg (by decide)]
      rw [firstIdx_append (· = ']') host ']' (':' :: post)
        (fun x hx => by
          simp only [decide_eq_false_iff_not]
          exact hnb x hx)
        (by decide)]
      rfl
    have e1 : addrPortOfToken (some srv) =
        (match ipOrFqdnStr (String.mk ((srv.data.drop 1).take
            (host.length + 1 - 1))) with
         | .ok h => (match substrFrom srv.data (host.length + 1 + 2) with
           | .ok rest => (match parsePortFromString (String.mk rest) with
             | .ok p2 => (Except.ok (h, p2) : Except Err (String × Nat))
             | .error e => .error e)
           | .error e => .error e)
         | .error e => .error e) := by
      simp only [addrPortOfToken]
      rw [if_neg hb0, if_neg hb1, if_pos hhead, hfirst]
    have hdrop1 : srv.data.drop 1 = host ++ ']' :: ':' :: post := by
      rw [hcs]
      rfl
    have htake : (host ++ ']' :: ':' :: post).take (host.length + 1 - 1) =
        host := by
      simp only [Nat.add_sub_cancel]
      exact List.take_left host (']' :: ':' :: post)
    have hsub : substrFrom srv.data (host.length + 1 + 2) = .ok post := by
      have h2 : srv.data = ('[' :: host ++ [']', ':']) ++ post := by
        rw [hcs]
        simp
      have h3 : ('[' :: host ++ [']', ':']).length = host.length + 1 + 2 := by
        simp only [List.cons_append, List.length_cons, List.length_append,
          List.length_nil]
      unfold substrFrom
      rw [if_pos]
      · rw [h2, ← h3]
        rw [List.drop_left ('[' :: host ++ [']', ':']) post]
      · rw [h2]
        simp only [List.length_append, List.cons_append, List.length_cons,
          List.length_nil]
        omega
    rw [hdrop1, htake, hsub] at e1
    constructor
    · intro h hh
      rw [e1, hh]
      show (match parsePortFromString (String.mk post) with
            | .ok p2 => (Except.ok (h, p2) : Except Err (String × Nat))
            | .error e => .error e) =
          (parsePortFromString (String.mk post)).map (fun p => (h, p))
      cases parsePortFromString (String.mk post) <;> rfl
    · intro e he
      rw [e1, he]
  · intro h2c hnb
    have e1 : addrPortOfToken (some srv) = setDefaultPortStr srv := by
      simp only [addrPortOfToken]
      rw [if_neg (by omega), if_neg (by omega), if_neg hnb]
    rw [e1]
    unfold setDefaultPortStr
    cases ipOrFqdnStr srv <;> rfl

theorem c4_witness : addrPortOfToken (some "host:530") = .ok ("host", 530) := by
  have h := ((c4_colon_dispatch "host:530").2.1 "host".data "530".data rfl
    (by decide)).1 "host" rfl
  rw [h]
  rfl

/-- C10: `parseAddrAndPort` never advances the cursor: every successful call
returns the argument cursor unchanged, and when the token stream is
exhausted it returns `("", 0)` without error, leaving the endpoint token
(if any) for the caller to consume. -/
theorem c10_no_advance (a : Arguments) :
    (∀ r a2, a.parseAddrAndPort = .ok (r, a2) → a2 = a) ∧
    (a.peek = none → a.parseAddrAndPort = .ok (("", 0), a)) := by
  constructor
  · intro r a2 h
    unfold Arguments.parseAddrAndPort at h
    cases hp : a.peek with
    | none =>
      rw [hp] at h
      have h2 : (Except.ok (("", 0), a) :
          Except Err ((String × Nat) × Arguments)) = .ok (r, a2) := h
      injection h2 with h3
      exact (congrArg Prod.snd h3).symm
    | some srv =>
      rw [hp] at h
      cases hap : addrPortOfToken (some srv) with
      | ok r2 =>
        have h2 : (match addrPortOfToken (some srv) with
            | .ok r3 => (Except.ok (r3, a) :
                Except Err ((String × Nat) × Arguments))
            | .error e => .error e) = .ok (r, a2) := h
        rw [hap] at h2
        have h3 : (Except.ok (r2, a) :
            Except Err ((String × Nat) × Arguments)) = .ok (r, a2) := h2
        injection h3 with h4
        exact (congrArg Prod.snd h4).symm
      | error e =>
        have h2 : (match addrPortOfToken (some srv) with
            | .ok r3 => (Except.ok (r3, a) :
                Except Err ((String × Nat) × Arguments))
            | .error e => .error e) = .ok (r, a2) := h
        rw [hap] at h2
        cases h2
  · intro hp
    unfold Arguments.parseAddrAndPort
    rw [hp]

theorem c10_witness :
    Arguments.parseAddrAndPort ⟨["x"], 1⟩ = .ok (("", 0), ⟨["x"], 1⟩) :=
  (c10_no_advance ⟨["x"], 1⟩).2 rfl
